import Mathlib

/-!
Verification development for the persisted-query-manifest generator
(`@apollo/generate-persisted-query-manifest`).  The definitions below are a
shallow embedding of the final revision of the generator pipeline
(`generatePersistedQueryManifest` and its helpers `fromFilepathList`,
`getFilepaths`, `maybeReportErrorsAndExit`, `addError`, the ApolloLink
handler) together with the CLI entry point.  External collaborators
(GraphQL printer, fragment expansion through the Apollo client,
`sortTopLevelDefinitions`, the sha256 digest) are modelled as parameters
bundled in an `Externals` structure, since the generator treats them as
black boxes.
-/

namespace PQGen

/-! ## GraphQL document model (the parts the generator inspects) -/

/-- The three operation kinds of a GraphQL `OperationDefinitionNode`. -/
inductive OpType
  | query
  | mutation
  | subscription
deriving DecidableEq

/-- An `OperationDefinitionNode`: the generator only reads `name.value` and
`operation`; the selection set is carried as opaque text for the external
printer. -/
structure OperationDef where
  name : Option String
  opType : OpType
  selection : String
deriving DecidableEq

/-- A `FragmentDefinitionNode`: the generator only reads `name.value`. -/
structure FragmentDef where
  name : String
  selection : String
deriving DecidableEq

/-- A top-level executable definition of a GraphQL document. -/
inductive Definition
  | op (o : OperationDef)
  | frag (f : FragmentDef)
deriving DecidableEq

/-- A parsed `DocumentNode`.  GraphQL grammar only allows executable
definitions at the top level, so `visit` with `OperationDefinition` /
`FragmentDefinition` handlers that return `false` is an in-order walk of
this list. -/
structure DocumentNode where
  definitions : List Definition
deriving DecidableEq

/-- Identity of a `vfile` object.  Each discovered file gets its own
`vfile`; the virtual config-level file (`configFile` in the source) is a
separate object, never aliased with a document file. -/
inductive FileId
  | src (uid : Nat)
  | config
deriving DecidableEq

/-- A `DocumentSource`: one syntactic GraphQL document extracted from one
physical location.  `node = none` models a parse failure.  The source
location is not tracked (it only decorates rendered messages). -/
structure DocumentSource where
  node : Option DocumentNode
  fileUid : Nat
  filePath : String
deriving DecidableEq

/-! ## Diagnostics -/

/-- The messages of `ERROR_MESSAGES`, kept structured so that theorems can
talk about which counterpart a collision message references. -/
inductive Message
  | anonymousOperation (t : OpType)
  | multipleOperations
  | uniqueFragment (name siblingPath : String)
  | uniqueOperation (name siblingPath : String)
  | uniqueOperationId (id opName prevName : String)
  | execError (text : String)
  | loadError (text : String)
deriving DecidableEq

/-- A `vfile` message: file it is attached to, structured content, and the
`fatal` flag. -/
structure Diagnostic where
  fileId : FileId
  message : Message
  fatal : Bool
deriving DecidableEq

/-- All per-file message lists, flattened into one chronological log. -/
abbrev DiagLog := List Diagnostic

/-- `addError`: `source.file.message(message, location)` followed by
`vfileMessage.fatal = true`. -/
def addError (log : DiagLog) (f : FileId) (m : Message) : DiagLog :=
  log ++ [⟨f, m, true⟩]

/-- `file.messages.length > 0` for a given file. -/
def fileHasMessage (log : DiagLog) (f : FileId) : Bool :=
  log.any (fun d => d.fileId = f)

/-- `maybeReportErrorsAndExit`: fires (printing a report and exiting 1)
precisely when some file in the list carries at least one message. -/
def gateFires (files : List FileId) (log : DiagLog) : Bool :=
  files.any (fileHasMessage log)

/-! ## JS `Map` (string-keyed, insertion ordered) -/

/-- `Map.get`: value of the first (unique) entry with this key. -/
def mapGet {α : Type} (m : List (String × α)) (k : String) : Option α :=
  match m with
  | [] => none
  | p :: rest => if p.1 = k then some p.2 else mapGet rest k

/-- `Map.set`: update an existing entry in place, else append at the end. -/
def mapSet {α : Type} (m : List (String × α)) (k : String) (v : α) :
    List (String × α) :=
  match m with
  | [] => [(k, v)]
  | p :: rest => if p.1 = k then (k, v) :: rest else p :: mapSet rest k v

/-- Worker for `uniqFirst`: keep elements not seen yet. -/
def uniqFirstAux {α : Type} [DecidableEq α] (seen : List α) : List α → List α
  | [] => []
  | x :: xs =>
      if x ∈ seen then uniqFirstAux seen xs
      else x :: uniqFirstAux (x :: seen) xs

/-- `uniq` / `new Set(...)`: deduplicate keeping first occurrences. -/
def uniqFirst {α : Type} [DecidableEq α] (l : List α) : List α :=
  uniqFirstAux [] l

/-! ## Uniqueness validator (`fromFilepathList`) -/

/-- The two name registries accumulated by the validator walk. -/
structure Registries where
  fragmentsByName : List (String × List DocumentSource)
  operationsByName : List (String × List DocumentSource)

def emptyRegistries : Registries := ⟨[], []⟩

/-- `fragmentsByName.get(name) ?? []`. -/
def fragBucket (reg : Registries) (n : String) : List DocumentSource :=
  (mapGet reg.fragmentsByName n).getD []

/-- `operationsByName.get(name) ?? []`. -/
def opBucket (reg : Registries) (n : String) : List DocumentSource :=
  (mapGet reg.operationsByName n).getD []

/-- The symmetric fan-out at a collision:
`sources.forEach(sibling => { addError(source, msg(sibling)); addError(sibling, msg(source)); })`. -/
def addDupErrors (s : DocumentSource) (bucket : List DocumentSource)
    (mk : String → Message) (log : DiagLog) : DiagLog :=
  bucket.foldl
    (fun log sib =>
      addError (addError log (.src s.fileUid) (mk sib.filePath))
        (.src sib.fileUid) (mk s.filePath))
    log

/-- The `visit` callback pair of `fromFilepathList`, walking the top-level
definitions of one source.  `c` is `documentCount` before the current
definition; `if (++documentCount > 1)` reports `multipleOperations` and
`BREAK`s (dropping the rest of the walk). -/
def visitDefs (s : DocumentSource) :
    List Definition → Nat → DiagLog → Registries → DiagLog × Registries
  | [], _, log, reg => (log, reg)
  | .frag f :: rest, c, log, reg =>
      let bucket := fragBucket reg f.name
      let log := addDupErrors s bucket (fun p => .uniqueFragment f.name p) log
      let reg :=
        { reg with
          fragmentsByName := mapSet reg.fragmentsByName f.name (bucket ++ [s]) }
      visitDefs s rest c log reg
  | .op o :: rest, c, log, reg =>
      if 1 < c + 1 then
        (addError log (.src s.fileUid) .multipleOperations, reg)
      else
        match o.name with
        | none =>
            visitDefs s rest (c + 1)
              (addError log (.src s.fileUid) (.anonymousOperation o.opType)) reg
        | some n =>
            let bucket := opBucket reg n
            let log := addDupErrors s bucket (fun p => .uniqueOperation n p) log
            let reg :=
              { reg with
                operationsByName := mapSet reg.operationsByName n (bucket ++ [s]) }
            visitDefs s rest (c + 1) log reg

/-- One iteration of `for (const source of sources)`: sources without a
parsed node are skipped (`if (!source.node) continue`). -/
def visitSource (st : DiagLog × Registries) (s : DocumentSource) :
    DiagLog × Registries :=
  match s.node with
  | none => st
  | some d => visitDefs s d.definitions 0 st.1 st.2

/-- The full validation walk of `fromFilepathList` over the ordered source
list, starting from the diagnostics attached during loading. -/
def validateSources (log0 : DiagLog) (sources : List DocumentSource) :
    DiagLog × Registries :=
  sources.foldl visitSource (log0, emptyRegistries)

/-! ## Operation collection for manifest ordering -/

/-- `opDefs d`: the operation definitions of a document, in order. -/
def opDefs (d : DocumentNode) : List OperationDef :=
  d.definitions.filterMap (fun df =>
    match df with
    | .op o => some o
    | .frag _ => none)

/-- `fragDefs d`: the fragment definitions of a document, in order. -/
def fragDefs (d : DocumentNode) : List FragmentDef :=
  d.definitions.filterMap (fun df =>
    match df with
    | .op _ => none
    | .frag f => some f)

/-- The source declares an operation with this name. -/
def declaresOp (n : String) (s : DocumentSource) : Bool :=
  match s.node with
  | none => false
  | some d => (opDefs d).any (fun o => o.name = some n)

/-- The source declares a fragment with this name. -/
def declaresFrag (n : String) (s : DocumentSource) : Bool :=
  match s.node with
  | none => false
  | some d => (fragDefs d).any (fun f => f.name = n)

/-- One step of the `OperationDefinition` visitor of the second
`operationsByName` collection: record the source under the operation
name, skipping unnamed operations silently. -/
def collectDef (s : DocumentSource) (m : List (String × List DocumentSource))
    (df : Definition) : List (String × List DocumentSource) :=
  match df with
  | .op o =>
      match o.name with
      | none => m
      | some n => mapSet m n (((mapGet m n).getD []) ++ [s])
  | .frag _ => m

/-- One iteration of the collection loop (`if (!source.node) continue`). -/
def collectSource (m : List (String × List DocumentSource))
    (s : DocumentSource) : List (String × List DocumentSource) :=
  match s.node with
  | none => m
  | some d => d.definitions.foldl (collectDef s) m

/-- The second `operationsByName` collection inside
`generatePersistedQueryManifest` (validation already delegated): record
every named operation's source per document, in order. -/
def collectOps (sources : List DocumentSource) :
    List (String × List DocumentSource) :=
  sources.foldl collectSource []

/-! ## Manifest output shape -/

structure PersistedQueryManifestOperation where
  id : String
  name : String
  opType : OpType
  body : String
deriving DecidableEq

structure PersistedQueryManifest where
  format : String
  version : Nat
  operations : List PersistedQueryManifestOperation
deriving DecidableEq

/-! ## External collaborators -/

/-- A fragment registry, by its lookup semantics. -/
abbrev FragLookup := String → Option FragmentDef

/-- `createFragmentRegistry`'s registration of one fragment definition
(assignment into the name-indexed registry, later wins). -/
def overrideFrag (acc : FragLookup) (f : FragmentDef) : FragLookup :=
  fun n => if n = f.name then some f else acc n

def registerFragList (l : List FragmentDef) : FragLookup :=
  l.foldl overrideFrag (fun _ => none)

/-- Concat-map helper (`Array.prototype.flatMap`). -/
def concatMap {α β : Type} (f : α → List β) : List α → List β
  | [] => []
  | x :: xs => f x ++ concatMap f xs

/-- All fragment definitions of the parsed sources, in document order:
`createFragmentRegistry(...sources.map(({node}) => node).filter(Boolean))`. -/
def registerFrags (sources : List DocumentSource) : FragLookup :=
  registerFragList (concatMap fragDefs (sources.filterMap (·.node)))

/-- The external collaborators of the normalization stage:
`client.query` fragment expansion (plus any configured document
transform), `sortTopLevelDefinitions`, `print`, and the sha256 hex
digest of `node:crypto`. -/
structure Externals where
  expand : FragLookup → DocumentNode → Except String DocumentNode
  sortTop : DocumentNode → DocumentNode
  printDoc : DocumentNode → String
  sha256hex : String → String

/-! ## Configuration and input corpus -/

/-- The options record passed to a custom `createOperationId`. -/
structure CreateIdInput where
  operationName : String
  opType : OpType
  defaultId : String

/-- The parts of `PersistedQueryManifestConfig` the pipeline branches on. -/
structure GenConfig where
  createOperationId : Option (String → CreateIdInput → String)
  output : Option String

/-- The loaded document corpus: the `DocumentSourceConfig` produced either
by `fromFilepathList` pre-validation (glob path, `isCustom = false`) or by
a custom documents source callback (`isCustom = true`, validation is
skipped and an optional fragment registry is supplied).  `initialLog`
carries diagnostics attached while loading (parse errors on the glob path,
missing/malformed manifest errors on the codegen path). -/
structure CorpusInput where
  sources : List DocumentSource
  initialLog : DiagLog
  isCustom : Bool
  customFragments : Option FragLookup

def srcFileIds (sources : List DocumentSource) : List FileId :=
  sources.map (fun s => FileId.src s.fileUid)

/-- The diagnostics present when the first gate runs: for the glob path
the validator has walked all sources, for a custom source validation is
skipped. -/
def valLogOf (input : CorpusInput) : DiagLog :=
  if input.isCustom then input.initialLog
  else (validateSources input.initialLog input.sources).1

/-- The fragment registry handed to the client cache: the custom one if
supplied, the registry over all discovered fragments on the glob path, and
the empty `InMemoryCache()` otherwise. -/
def effRegOf (input : CorpusInput) : FragLookup :=
  if input.isCustom then input.customFragments.getD (fun _ => none)
  else registerFrags input.sources

/-- `uniq(sources.map((source) => source.file))`: first gate's file set. -/
def files1Of (input : CorpusInput) : List FileId :=
  uniqFirst (srcFileIds input.sources)

/-- `uniq(sources.map((source) => source.file).concat(configFile))`. -/
def files2Of (input : CorpusInput) : List FileId :=
  uniqFirst (srcFileIds input.sources ++ [FileId.config])

/-! ## Normalization & ID assignment (the ApolloLink handler) -/

/-- `definitions.find((d) => d.kind === "OperationDefinition")`. -/
def getOpDef (d : DocumentNode) : Option OperationDef :=
  (opDefs d).head?

/-- `operation.operationName` of the expanded query. -/
def getOpName (d : DocumentNode) : String :=
  ((getOpDef d).bind OperationDef.name).getD ""

/-- `.operation` of the found operation definition. -/
def getOpType (d : DocumentNode) : OpType :=
  ((getOpDef d).map OperationDef.opType).getD OpType.query

/-- The ID: the configured `createOperationId` if any (receiving the
canonical body, the operation name, its type and the default-hash
closure), else `defaults.createOperationId` = sha256 hex of the body. -/
def makeOperationId (E : Externals) (cfg : GenConfig)
    (body name : String) (ty : OpType) : String :=
  match cfg.createOperationId with
  | none => E.sha256hex body
  | some f => f body ⟨name, ty, E.sha256hex body⟩

/-- The manifest entry one successful `client.query` pushes for a source,
if any: `body = print(sortTopLevelDefinitions(operation.query))` of the
fragment-expanded query. -/
def pushedOp (E : Externals) (cfg : GenConfig) (reg : FragLookup)
    (s : DocumentSource) : Option PersistedQueryManifestOperation :=
  match s.node with
  | none => none
  | some d =>
      match E.expand reg d with
      | .error _ => none
      | .ok q =>
          let body := E.printDoc (E.sortTop q)
          let name := getOpName q
          let ty := getOpType q
          some ⟨makeOperationId E cfg body name ty, name, ty, body⟩

/-- The mutable state of the execution loop: the per-file message lists,
`manifestOperationIds` and `manifestOperations`. -/
structure ExecState where
  log : DiagLog
  ids : List (String × String)
  ops : List PersistedQueryManifestOperation

/-- The ApolloLink handler body for one operation with canonical `body`,
`name` and type `ty`: check the id against `manifestOperationIds`
(recording a `uniqueOperationId` error on the virtual config file on a
hit, else registering the id) and always push the manifest operation. -/
def execLink (E : Externals) (cfg : GenConfig) (st : ExecState)
    (body name : String) (ty : OpType) : ExecState :=
  let id := makeOperationId E cfg body name ty
  match mapGet st.ids id with
  | some prev =>
      { log := addError st.log FileId.config (.uniqueOperationId id name prev),
        ids := st.ids,
        ops := st.ops ++ [⟨id, name, ty, body⟩] }
  | none =>
      { log := st.log,
        ids := mapSet st.ids id name,
        ops := st.ops ++ [⟨id, name, ty, body⟩] }

/-- One `await client.query({query: source.node, ...})`: an expansion
failure is caught and recorded on the source; a success runs the link
handler on `body = print(sortTopLevelDefinitions(operation.query))`. -/
def execSource (E : Externals) (cfg : GenConfig) (reg : FragLookup)
    (st : ExecState) (s : DocumentSource) : ExecState :=
  match s.node with
  | none => st
  | some d =>
      match E.expand reg d with
      | .error e =>
          { st with log := addError st.log (.src s.fileUid) (.execError e) }
      | .ok q =>
          execLink E cfg st (E.printDoc (E.sortTop q)) (getOpName q) (getOpType q)

/-- JS string comparison, character by character (lexicographic). -/
def charListLe : List Char → List Char → Bool
  | [], _ => true
  | _ :: _, [] => false
  | a :: as, b :: bs =>
      if a < b then true else if b < a then false else charListLe as bs

/-- `a <= b` for JS strings. -/
def strLe (a b : String) : Bool := charListLe a.data b.data

/-- `strLe` as a relation. -/
def strLeR (a b : String) : Prop := strLe a b = true

instance : DecidableRel strLeR := fun a b =>
  inferInstanceAs (Decidable (strLe a b = true))

/-- Comparison of `[name, sources]` entries by name, the sort key
`sortBy([...], first)` uses. -/
def entryLeR (a b : String × List DocumentSource) : Prop := strLeR a.1 b.1

instance : DecidableRel entryLeR := fun a b =>
  inferInstanceAs (Decidable (strLe a.1 b.1 = true))

/-- `sortBy([...operationsByName.entries()], first)`: stable sort of the
entries by operation name. -/
def sortedEntries (m : List (String × List DocumentSource)) :
    List (String × List DocumentSource) :=
  List.insertionSort entryLeR m

/-- The nested execution loop over the name-sorted entries. -/
def execAll (E : Externals) (cfg : GenConfig) (reg : FragLookup)
    (entries : List (String × List DocumentSource)) (log0 : DiagLog) :
    ExecState :=
  (sortedEntries entries).foldl
    (fun st e => e.2.foldl (execSource E cfg reg) st)
    ⟨log0, [], []⟩

/-- The state after the execution loop of `generatePersistedQueryManifest`. -/
def execStateOf (E : Externals) (cfg : GenConfig) (input : CorpusInput) :
    ExecState :=
  execAll E cfg (effRegOf input) (collectOps input.sources) (valLogOf input)

/-! ## The pipeline -/

/-- `generatePersistedQueryManifest`: gate after validation, gate after
normalization (now including the virtual config file), then the fixed
envelope.  `Except.error 1` models `process.exit(1)` inside
`maybeReportErrorsAndExit`. -/
def runGenerate (E : Externals) (cfg : GenConfig) (input : CorpusInput) :
    Except Nat PersistedQueryManifest :=
  if gateFires (files1Of input) (valLogOf input) then .error 1
  else if gateFires (files2Of input) (execStateOf E cfg input).log then .error 1
  else .ok ⟨"apollo-persisted-query-manifest", 1, (execStateOf E cfg input).ops⟩

/-! ## File path discovery (`getFilepaths`, glob branch) -/

/-- `[...uniq(await globby(documents))].sort((a, b) => a.localeCompare(b))`:
deduplicate, then sort by the (total) path comparison. -/
def getFilepathsModel (paths : List String) : List String :=
  List.insertionSort strLeR (uniqFirst paths)

/-! ## CLI (`cli.js` action) -/

/-- `defaults.output`. -/
def defaultsOutput : String := "persisted-query-manifest.json"

inductive CliEffect
  | writeFile (path content : String)
  | printLine (text : String)
  | printErrorReport
deriving DecidableEq

/-- The `program.action` body: load the user config, compute
`outputPath = result?.config.output ?? defaults.output`, run the
generator, and log `Written to <outputPath>`.  A fatal run prints the
report on stderr and exits 1 inside the generator. -/
def cliAction (E : Externals) (userConfig : Option GenConfig)
    (input : CorpusInput) : List CliEffect × Nat :=
  let cfg := userConfig.getD ⟨none, none⟩
  let outputPath := (userConfig.bind GenConfig.output).getD defaultsOutput
  match runGenerate E cfg input with
  | .error code => ([.printErrorReport], code)
  | .ok _ => ([.printLine ("Written to " ++ outputPath)], 0)

/-! ## Basic lemmas about logs, maps and buckets -/

theorem mem_addError {log : DiagLog} {f m d} :
    d ∈ addError log f m ↔ d ∈ log ∨ d = ⟨f, m, true⟩ := by
  simp [addError]

/-- The diagnostic log is append-only. -/
def LogLe (l l' : DiagLog) : Prop := ∃ t, l' = l ++ t

theorem LogLe.refl {l : DiagLog} : LogLe l l := ⟨[], by simp⟩

theorem LogLe.trans {a b c : DiagLog} (h1 : LogLe a b) (h2 : LogLe b c) :
    LogLe a c := by
  obtain ⟨t1, rfl⟩ := h1
  obtain ⟨t2, rfl⟩ := h2
  exact ⟨t1 ++ t2, by simp⟩

theorem LogLe.mem {l l' : DiagLog} {d} (hd : d ∈ l) (h : LogLe l l') :
    d ∈ l' := by
  obtain ⟨t, rfl⟩ := h
  exact List.mem_append_left _ hd

theorem logLe_addError {log : DiagLog} {f m} : LogLe log (addError log f m) :=
  ⟨[⟨f, m, true⟩], rfl⟩

theorem logLe_addDupErrors {s : DocumentSource} {bucket mk} {log : DiagLog} :
    LogLe log (addDupErrors s bucket mk log) := by
  induction bucket generalizing log with
  | nil => exact LogLe.refl
  | cons sib rest ih =>
      exact LogLe.trans (LogLe.trans logLe_addError logLe_addError) ih

theorem logLe_visitDefs {s : DocumentSource} {defs : List Definition}
    {c log reg} : LogLe log (visitDefs s defs c log reg).1 := by
  induction defs generalizing c log reg with
  | nil => exact LogLe.refl
  | cons df rest ih =>
      match df with
      | .frag f =>
          exact LogLe.trans logLe_addDupErrors ih
      | .op o =>
          simp only [visitDefs]
          split
          · exact logLe_addError
          · match o.name with
            | none => exact LogLe.trans logLe_addError ih
            | some n =>
                exact LogLe.trans logLe_addDupErrors ih

theorem logLe_visitSource {st : DiagLog × Registries} {s} :
    LogLe st.1 (visitSource st s).1 := by
  unfold visitSource
  match s.node with
  | none => exact LogLe.refl
  | some d => exact logLe_visitDefs

theorem logLe_foldl_visitSource {l : List DocumentSource} :
    ∀ st : DiagLog × Registries, LogLe st.1 (l.foldl visitSource st).1 := by
  induction l with
  | nil => exact fun _ => LogLe.refl
  | cons s rest ih =>
      exact fun st => LogLe.trans logLe_visitSource (ih (visitSource st s))

theorem logLe_validateSources {log0 sources} :
    LogLe log0 (validateSources log0 sources).1 :=
  logLe_foldl_visitSource (log0, emptyRegistries)

theorem logLe_execLink {E cfg} {st : ExecState} {body name ty} :
    LogLe st.log (execLink E cfg st body name ty).log := by
  simp only [execLink]
  split
  · exact logLe_addError
  · exact LogLe.refl

theorem logLe_execSource {E cfg reg} {st : ExecState} {s} :
    LogLe st.log (execSource E cfg reg st s).log := by
  simp only [execSource]
  split
  · exact LogLe.refl
  · split
    · exact logLe_addError
    · exact logLe_execLink

theorem logLe_execBucket {E cfg reg} {srcs : List DocumentSource} :
    ∀ st : ExecState, LogLe st.log (srcs.foldl (execSource E cfg reg) st).log := by
  induction srcs with
  | nil => exact fun _ => LogLe.refl
  | cons s rest ih =>
      exact fun st => LogLe.trans logLe_execSource (ih _)

theorem logLe_execEntries {E cfg reg}
    {entries : List (String × List DocumentSource)} :
    ∀ st : ExecState,
      LogLe st.log
        (entries.foldl (fun st e => e.2.foldl (execSource E cfg reg) st) st).log := by
  induction entries with
  | nil => exact fun _ => LogLe.refl
  | cons e rest ih =>
      exact fun st => LogLe.trans (logLe_execBucket st) (ih _)

theorem logLe_execAll {E cfg reg entries log0} :
    LogLe log0 (execAll E cfg reg entries log0).log :=
  logLe_execEntries ⟨log0, [], []⟩

theorem mapGet_mapSet_self {α : Type} (m : List (String × α)) (k v) :
    mapGet (mapSet m k v) k = some v := by
  induction m with
  | nil => simp [mapSet, mapGet]
  | cons p m ih =>
      by_cases h : p.1 = k
      · simp [mapSet, h, mapGet]
      · simp [mapSet, h, mapGet, ih]

theorem mapGet_mapSet_ne {α : Type} (m : List (String × α)) {k k'} (v)
    (h : k' ≠ k) : mapGet (mapSet m k v) k' = mapGet m k' := by
  induction m with
  | nil => simp [mapSet, mapGet, Ne.symm h]
  | cons p m ih =>
      by_cases hp : p.1 = k
      · have hp' : ¬p.1 = k' := by
          rw [hp]
          exact Ne.symm h
        simp [mapSet, hp, mapGet, hp', Ne.symm h]
      · simp only [mapSet, if_neg hp, mapGet]
        rw [ih]

theorem fragBucket_update_self (reg : Registries) (nm b) :
    fragBucket { reg with fragmentsByName := mapSet reg.fragmentsByName nm b }
      nm = b := by
  simp [fragBucket, mapGet_mapSet_self]

theorem fragBucket_update_ne (reg : Registries) {n nm} (b) (h : n ≠ nm) :
    fragBucket { reg with fragmentsByName := mapSet reg.fragmentsByName nm b }
      n = fragBucket reg n := by
  simp [fragBucket, mapGet_mapSet_ne _ _ h]

theorem opBucket_update_self (reg : Registries) (nm b) :
    opBucket { reg with operationsByName := mapSet reg.operationsByName nm b }
      nm = b := by
  simp [opBucket, mapGet_mapSet_self]

theorem opBucket_update_ne (reg : Registries) {n nm} (b) (h : n ≠ nm) :
    opBucket { reg with operationsByName := mapSet reg.operationsByName nm b }
      n = opBucket reg n := by
  simp [opBucket, mapGet_mapSet_ne _ _ h]

theorem fragBucket_update_op (reg : Registries) (nm b n) :
    fragBucket { reg with operationsByName := mapSet reg.operationsByName nm b }
      n = fragBucket reg n := rfl

theorem opBucket_update_frag (reg : Registries) (nm b n) :
    opBucket { reg with fragmentsByName := mapSet reg.fragmentsByName nm b }
      n = opBucket reg n := rfl

/-! ## Gate and membership lemmas -/

theorem gateFires_iff {files : List FileId} {log : DiagLog} :
    gateFires files log = true ↔ ∃ d ∈ log, d.fileId ∈ files := by
  simp only [gateFires, fileHasMessage, List.any_eq_true, decide_eq_true_eq]
  constructor
  · rintro ⟨f, hf, d, hd, rfl⟩
    exact ⟨d, hd, hf⟩
  · rintro ⟨d, hd, hf⟩
    exact ⟨d.fileId, hf, d, hd, rfl⟩

theorem gateFires_nil {files : List FileId} : gateFires files [] = false := by
  simp [gateFires, fileHasMessage]

theorem mem_uniqFirstAux {α : Type} [DecidableEq α] :
    ∀ (l seen : List α) (a : α),
      a ∈ uniqFirstAux seen l ↔ a ∈ l ∧ a ∉ seen := by
  intro l
  induction l with
  | nil => simp [uniqFirstAux]
  | cons x xs ih =>
      intro seen a
      by_cases hx : x ∈ seen
      · simp only [uniqFirstAux, if_pos hx, ih, List.mem_cons]
        constructor
        · rintro ⟨ha, hs⟩
          exact ⟨.inr ha, hs⟩
        · rintro ⟨rfl | ha, hs⟩
          · exact absurd hx hs
          · exact ⟨ha, hs⟩
      · simp only [uniqFirstAux, if_neg hx, List.mem_cons, ih]
        constructor
        · rintro (rfl | ⟨ha, hs⟩)
          · exact ⟨.inl rfl, hx⟩
          · simp only [List.mem_cons, not_or] at hs
            exact ⟨.inr ha, hs.2⟩
        · rintro ⟨rfl | ha, hs⟩
          · exact .inl rfl
          · by_cases hax : a = x
            · exact .inl hax
            · exact .inr ⟨ha, by simp [hax, hs]⟩

theorem mem_uniqFirst {α : Type} [DecidableEq α] (l : List α) (a : α) :
    a ∈ uniqFirst l ↔ a ∈ l := by
  simp [uniqFirst, mem_uniqFirstAux]

theorem mem_files2_iff {input : CorpusInput} {f : FileId} :
    f ∈ files2Of input ↔ f ∈ srcFileIds input.sources ∨ f = FileId.config := by
  simp [files2Of, mem_uniqFirst]

theorem mem_files1_iff {input : CorpusInput} {f : FileId} :
    f ∈ files1Of input ↔ f ∈ srcFileIds input.sources := by
  simp [files1Of, mem_uniqFirst]

theorem mem_fragDefs {d : DocumentNode} {f : FragmentDef} :
    f ∈ fragDefs d ↔ Definition.frag f ∈ d.definitions := by
  simp only [fragDefs, List.mem_filterMap]
  constructor
  · rintro ⟨df, hdf, h⟩
    cases df with
    | op o => simp at h
    | frag f' =>
        simp only [Option.some.injEq] at h
        exact h ▸ hdf
  · intro h
    exact ⟨_, h, rfl⟩

theorem mem_opDefs {d : DocumentNode} {o : OperationDef} :
    o ∈ opDefs d ↔ Definition.op o ∈ d.definitions := by
  simp only [opDefs, List.mem_filterMap]
  constructor
  · rintro ⟨df, hdf, h⟩
    cases df with
    | frag f => simp at h
    | op o' =>
        simp only [Option.some.injEq] at h
        exact h ▸ hdf
  · intro h
    exact ⟨_, h, rfl⟩

theorem declaresFrag_of_mem {s : DocumentSource} {d : DocumentNode}
    {f : FragmentDef} (hn : s.node = some d)
    (hf : Definition.frag f ∈ d.definitions) : declaresFrag f.name s = true := by
  simp only [declaresFrag, hn, List.any_eq_true, decide_eq_true_eq]
  exact ⟨f, mem_fragDefs.2 hf, rfl⟩

theorem declaresOp_of_mem {s : DocumentSource} {d : DocumentNode}
    {o : OperationDef} {n : String} (hn : s.node = some d)
    (ho : Definition.op o ∈ d.definitions) (hname : o.name = some n) :
    declaresOp n s = true := by
  simp only [declaresOp, hn, List.any_eq_true, decide_eq_true_eq]
  exact ⟨o, mem_opDefs.2 ho, hname⟩

/-! ## Validator soundness and log provenance -/

/-- Registry soundness: every registered source belongs to the corpus `S`
and really declares the name it is registered under.  In particular an
anonymous operation is never registered. -/
def RegSound (S : List DocumentSource) (reg : Registries) : Prop :=
  (∀ n t, t ∈ fragBucket reg n → t ∈ S ∧ declaresFrag n t = true) ∧
  (∀ n t, t ∈ opBucket reg n → t ∈ S ∧ declaresOp n t = true)

/-- The message kinds the uniqueness validator can create. -/
def isValMsg : Message → Bool
  | .anonymousOperation _ => true
  | .multipleOperations => true
  | .uniqueFragment _ _ => true
  | .uniqueOperation _ _ => true
  | _ => false

/-- Validator log provenance: every diagnostic is either pre-existing or a
fatal validator message attached to a file of `S`. -/
def ValProv (log0 : DiagLog) (S : List DocumentSource) (log : DiagLog) : Prop :=
  ∀ d ∈ log, d ∈ log0 ∨
    (d.fatal = true ∧ d.fileId ∈ srcFileIds S ∧ isValMsg d.message = true)

theorem valProv_addDupErrors {log0 : DiagLog} {S : List DocumentSource}
    {s : DocumentSource} {bucket : List DocumentSource} {mk : String → Message}
    {log : DiagLog} (hs : s ∈ S) (hb : ∀ t ∈ bucket, t ∈ S)
    (hmk : ∀ p, isValMsg (mk p) = true) (h : ValProv log0 S log) :
    ValProv log0 S (addDupErrors s bucket mk log) := by
  induction bucket generalizing log with
  | nil => exact h
  | cons sib rest ih =>
      refine ih (fun t ht => hb t (List.mem_cons_of_mem _ ht)) ?_
      intro d hd
      rcases mem_addError.1 hd with hd | rfl
      · rcases mem_addError.1 hd with hd | rfl
        · exact h d hd
        · exact .inr ⟨rfl, List.mem_map_of_mem _ hs, hmk _⟩
      · exact .inr
          ⟨rfl, List.mem_map_of_mem _ (hb sib (List.mem_cons_self _ _)), hmk _⟩

theorem visitDefs_sound {S : List DocumentSource} {log0 : DiagLog}
    {s : DocumentSource} {d : DocumentNode} (hn : s.node = some d) :
    ∀ (defs : List Definition) (c : Nat) (log : DiagLog) (reg : Registries),
      (∀ df ∈ defs, df ∈ d.definitions) →
      s ∈ S → RegSound S reg → ValProv log0 S log →
      RegSound S (visitDefs s defs c log reg).2 ∧
      ValProv log0 S (visitDefs s defs c log reg).1 := by
  intro defs
  induction defs with
  | nil =>
      intro c log reg _ _ hreg hlog
      exact ⟨hreg, hlog⟩
  | cons df rest ih =>
      intro c log reg hsub hs hreg hlog
      match df with
      | .frag f =>
          refine ih c _ _ (fun df' h => hsub df' (List.mem_cons_of_mem _ h)) hs
            ⟨?_, ?_⟩ ?_
          · intro n t ht
            by_cases hnm : n = f.name
            · subst hnm
              rw [fragBucket_update_self] at ht
              rcases List.mem_append.1 ht with ht | ht
              · exact hreg.1 _ t ht
              · rw [List.mem_singleton] at ht
                subst ht
                exact ⟨hs, declaresFrag_of_mem hn (hsub _ (List.mem_cons_self _ _))⟩
            · rw [fragBucket_update_ne _ _ hnm] at ht
              exact hreg.1 n t ht
          · intro n t ht
            rw [opBucket_update_frag] at ht
            exact hreg.2 n t ht
          · exact valProv_addDupErrors hs (fun t ht => (hreg.1 _ t ht).1)
              (fun p => rfl) hlog
      | .op o =>
          simp only [visitDefs]
          split
          · refine ⟨hreg, ?_⟩
            intro d' hd'
            rcases mem_addError.1 hd' with hd' | rfl
            · exact hlog d' hd'
            · exact .inr ⟨rfl, List.mem_map_of_mem _ hs, rfl⟩
          · match homn : o.name with
            | none =>
                refine ih (c + 1) _ _
                  (fun df' h => hsub df' (List.mem_cons_of_mem _ h)) hs hreg ?_
                intro d' hd'
                rcases mem_addError.1 hd' with hd' | rfl
                · exact hlog d' hd'
                · exact .inr ⟨rfl, List.mem_map_of_mem _ hs, rfl⟩
            | some nm =>
                refine ih (c + 1) _ _
                  (fun df' h => hsub df' (List.mem_cons_of_mem _ h)) hs
                  ⟨?_, ?_⟩ ?_
                · intro n t ht
                  rw [fragBucket_update_op] at ht
                  exact hreg.1 n t ht
                · intro n t ht
                  by_cases hnm : n = nm
                  · subst hnm
                    rw [opBucket_update_self] at ht
                    rcases List.mem_append.1 ht with ht | ht
                    · exact hreg.2 _ t ht
                    · rw [List.mem_singleton] at ht
                      subst ht
                      exact ⟨hs, declaresOp_of_mem hn
                        (hsub _ (List.mem_cons_self _ _)) homn⟩
                  · rw [opBucket_update_ne _ _ hnm] at ht
                    exact hreg.2 n t ht
                · exact valProv_addDupErrors hs (fun t ht => (hreg.2 _ t ht).1)
                    (fun p => rfl) hlog

theorem visitSource_sound {S : List DocumentSource} {log0 : DiagLog}
    {st : DiagLog × Registries} {s : DocumentSource} (hs : s ∈ S)
    (hreg : RegSound S st.2) (hlog : ValProv log0 S st.1) :
    RegSound S (visitSource st s).2 ∧ ValProv log0 S (visitSource st s).1 := by
  simp only [visitSource]
  split
  · exact ⟨hreg, hlog⟩
  next d hn =>
      exact visitDefs_sound hn d.definitions 0 st.1 st.2
        (fun _ h => h) hs hreg hlog

theorem regSound_empty {S : List DocumentSource} : RegSound S emptyRegistries := by
  constructor
  · intro n t ht
    simp [fragBucket, emptyRegistries, mapGet] at ht
  · intro n t ht
    simp [opBucket, emptyRegistries, mapGet] at ht

theorem validate_sound {log0 : DiagLog} {sources : List DocumentSource} :
    RegSound sources (validateSources log0 sources).2 ∧
    ValProv log0 sources (validateSources log0 sources).1 := by
  have main : ∀ (l : List DocumentSource) (st : DiagLog × Registries),
      (∀ s ∈ l, s ∈ sources) → RegSound sources st.2 →
      ValProv log0 sources st.1 →
      RegSound sources (l.foldl visitSource st).2 ∧
      ValProv log0 sources (l.foldl visitSource st).1 := by
    intro l
    induction l with
    | nil =>
        intro st _ hreg hlog
        exact ⟨hreg, hlog⟩
    | cons s rest ih =>
        intro st hsub hreg hlog
        have h1 := visitSource_sound
          (hsub s (List.mem_cons_self _ _)) hreg hlog
        exact ih _ (fun t ht => hsub t (List.mem_cons_of_mem _ ht)) h1.1 h1.2
  exact main sources _ (fun s h => h) regSound_empty (fun d hd => .inl hd)

/-! ## Collection soundness and key uniqueness -/

/-- `m.get(n) ?? []` for a plain entry list. -/
def mBucket (m : List (String × List DocumentSource)) (n : String) :
    List DocumentSource :=
  (mapGet m n).getD []

/-- Soundness of the collection map relative to a corpus `S`. -/
def CollSound (S : List DocumentSource)
    (m : List (String × List DocumentSource)) : Prop :=
  ∀ n t, t ∈ mBucket m n → t ∈ S ∧ declaresOp n t = true

theorem collSound_collectDef {S : List DocumentSource} {s : DocumentSource}
    {d : DocumentNode} {m : List (String × List DocumentSource)}
    {df : Definition} (hs : s ∈ S) (hn : s.node = some d)
    (hdf : df ∈ d.definitions) (h : CollSound S m) :
    CollSound S (collectDef s m df) := by
  match df with
  | .frag f => exact h
  | .op o =>
      simp only [collectDef]
      match homn : o.name with
      | none => exact h
      | some nm =>
          intro n t ht
          by_cases hnm : n = nm
          · subst hnm
            simp only [mBucket, mapGet_mapSet_self, Option.getD_some] at ht
            rcases List.mem_append.1 ht with ht | ht
            · exact h n t ht
            · rw [List.mem_singleton] at ht
              subst ht
              exact ⟨hs, declaresOp_of_mem hn hdf homn⟩
          · simp only [mBucket, mapGet_mapSet_ne _ _ hnm] at ht
            exact h n t ht

theorem collSound_collectSource {S : List DocumentSource}
    {m : List (String × List DocumentSource)} {s : DocumentSource}
    (hs : s ∈ S) (h : CollSound S m) : CollSound S (collectSource m s) := by
  simp only [collectSource]
  split
  · exact h
  next d hn =>
      have main : ∀ (defs : List Definition) (m : List (String × List DocumentSource)),
          (∀ df ∈ defs, df ∈ d.definitions) → CollSound S m →
          CollSound S (defs.foldl (collectDef s) m) := by
        intro defs
        induction defs with
        | nil => exact fun m _ h => h
        | cons df rest ih =>
            intro m hsub hm
            exact ih _ (fun df' h' => hsub df' (List.mem_cons_of_mem _ h'))
              (collSound_collectDef hs hn (hsub df (List.mem_cons_self _ _)) hm)
      exact main d.definitions m (fun _ h' => h') h

theorem collSound_collectOps {sources : List DocumentSource} :
    CollSound sources (collectOps sources) := by
  have main : ∀ (l : List DocumentSource) (m : List (String × List DocumentSource)),
      (∀ s ∈ l, s ∈ sources) → CollSound sources m →
      CollSound sources (l.foldl collectSource m) := by
    intro l
    induction l with
    | nil => exact fun m _ h => h
    | cons s rest ih =>
        intro m hsub hm
        exact ih _ (fun t ht => hsub t (List.mem_cons_of_mem _ ht))
          (collSound_collectSource (hsub s (List.mem_cons_self _ _)) hm)
  refine main sources [] (fun s h => h) ?_
  intro n t ht
  simp [mBucket, mapGet] at ht

/-- Keys of an entry list. -/
def mapKeys {α : Type} (m : List (String × α)) : List String :=
  m.map Prod.fst

theorem mem_mapKeys_mapSet {α : Type} {m : List (String × α)} {k a : String}
    {v : α} (h : a ∈ mapKeys (mapSet m k v)) : a ∈ mapKeys m ∨ a = k := by
  induction m with
  | nil =>
      simp [mapSet, mapKeys] at h
      exact .inr h
  | cons p m ih =>
      by_cases hp : p.1 = k
      · simp only [mapSet, if_pos hp, mapKeys, List.map_cons, List.mem_cons] at h ⊢
        rcases h with h | h
        · exact .inr h
        · exact .inl (.inr h)
      · simp only [mapSet, if_neg hp, mapKeys, List.map_cons, List.mem_cons] at h ⊢
        rcases h with h | h
        · exact .inl (.inl h)
        · rcases ih h with h' | h'
          · exact .inl (.inr h')
          · exact .inr h'

theorem nodupKeys_mapSet {α : Type} {m : List (String × α)} {k : String}
    {v : α} (h : (mapKeys m).Nodup) : (mapKeys (mapSet m k v)).Nodup := by
  induction m with
  | nil => simp [mapSet, mapKeys]
  | cons p m ih =>
      simp only [mapKeys, List.map_cons, List.nodup_cons] at h
      by_cases hp : p.1 = k
      · simp only [mapSet, if_pos hp, mapKeys, List.map_cons, List.nodup_cons]
        exact ⟨by rw [← hp]; exact h.1, h.2⟩
      · simp only [mapSet, if_neg hp, mapKeys, List.map_cons, List.nodup_cons]
        refine ⟨fun hmem => ?_, ih h.2⟩
        rcases mem_mapKeys_mapSet hmem with h' | h'
        · exact h.1 h'
        · exact hp h'

theorem nodupKeys_collectOps {sources : List DocumentSource} :
    (mapKeys (collectOps sources)).Nodup := by
  have stepDef : ∀ (s : DocumentSource) (m : List (String × List DocumentSource))
      (df : Definition), (mapKeys m).Nodup → (mapKeys (collectDef s m df)).Nodup := by
    intro s m df h
    match df with
    | .frag f => exact h
    | .op o =>
        simp only [collectDef]
        match o.name with
        | none => exact h
        | some nm => exact nodupKeys_mapSet h
  have stepDefs : ∀ (s : DocumentSource) (defs : List Definition)
      (m : List (String × List DocumentSource)), (mapKeys m).Nodup →
      (mapKeys (defs.foldl (collectDef s) m)).Nodup := by
    intro s defs
    induction defs with
    | nil => exact fun m h => h
    | cons df rest ih => exact fun m h => ih _ (stepDef s m df h)
  have stepSrc : ∀ (m : List (String × List DocumentSource)) (s : DocumentSource),
      (mapKeys m).Nodup → (mapKeys (collectSource m s)).Nodup := by
    intro m s h
    simp only [collectSource]
    split
    · exact h
    · exact stepDefs _ _ _ h
  have main : ∀ (l : List DocumentSource) (m : List (String × List DocumentSource)),
      (mapKeys m).Nodup → (mapKeys (l.foldl collectSource m)).Nodup := by
    intro l
    induction l with
    | nil => exact fun m h => h
    | cons s rest ih => exact fun m h => ih _ (stepSrc m s h)
  exact main sources [] (by simp [mapKeys])

theorem mapGet_eq_some_of_mem {α : Type} {m : List (String × α)} {k : String}
    {v : α} (hnd : (mapKeys m).Nodup) (h : (k, v) ∈ m) :
    mapGet m k = some v := by
  induction m with
  | nil => simp at h
  | cons p m ih =>
      simp only [mapKeys, List.map_cons, List.nodup_cons] at hnd
      rcases List.mem_cons.1 h with rfl | h
      · simp [mapGet]
      · have hk : ¬p.1 = k := by
          intro he
          exact hnd.1 (he ▸ List.mem_map_of_mem Prod.fst h)
        simp only [mapGet, if_neg hk]
        exact ih hnd.2 h

theorem mem_sortedEntries {m : List (String × List DocumentSource)}
    {e : String × List DocumentSource} : e ∈ sortedEntries m ↔ e ∈ m :=
  (List.perm_insertionSort _ m).mem_iff

/-- Every bucket reached by the execution loop is sound. -/
theorem sortedEntries_collect_sound {sources : List DocumentSource}
    {e : String × List DocumentSource}
    (he : e ∈ sortedEntries (collectOps sources)) :
    ∀ t ∈ e.2, t ∈ sources ∧ declaresOp e.1 t = true := by
  intro t ht
  have hm : (e.1, e.2) ∈ collectOps sources := mem_sortedEntries.1 he
  have := mapGet_eq_some_of_mem nodupKeys_collectOps hm
  exact collSound_collectOps e.1 t (by simp [mBucket, this, ht])

/-! ## Execution-phase provenance and output characterization -/

def isExecErrorMsg : Message → Bool
  | .execError _ => true
  | _ => false

def isUniqueIdMsg : Message → Bool
  | .uniqueOperationId _ _ _ => true
  | _ => false

/-- Execution-loop log provenance: every diagnostic is pre-existing, or a
fatal execution error on a corpus file, or a fatal id-collision report on
the virtual config file. -/
def ExecProv (log0 : DiagLog) (S : List DocumentSource) (log : DiagLog) : Prop :=
  ∀ d ∈ log, d ∈ log0 ∨
    (d.fatal = true ∧
      ((d.fileId ∈ srcFileIds S ∧ isExecErrorMsg d.message = true) ∨
        (d.fileId = FileId.config ∧ isUniqueIdMsg d.message = true)))

theorem execProv_execLink {log0 : DiagLog} {S : List DocumentSource} {E cfg}
    {st : ExecState} {body name ty} (h : ExecProv log0 S st.log) :
    ExecProv log0 S (execLink E cfg st body name ty).log := by
  simp only [execLink]
  split
  · intro d hd
    rcases mem_addError.1 hd with hd | rfl
    · exact h d hd
    · exact .inr ⟨rfl, .inr ⟨rfl, rfl⟩⟩
  · exact h

theorem execProv_execSource {log0 : DiagLog} {S : List DocumentSource}
    {E cfg reg} {st : ExecState} {s} (hs : s ∈ S)
    (h : ExecProv log0 S st.log) :
    ExecProv log0 S (execSource E cfg reg st s).log := by
  simp only [execSource]
  split
  · exact h
  · split
    · intro d hd
      rcases mem_addError.1 hd with hd | rfl
      · exact h d hd
      · exact .inr ⟨rfl, .inl ⟨List.mem_map_of_mem _ hs, rfl⟩⟩
    · exact execProv_execLink h

theorem execProv_foldl_bucket {log0 : DiagLog} {S : List DocumentSource}
    {E cfg reg} :
    ∀ (srcs : List DocumentSource), (∀ t ∈ srcs, t ∈ S) →
      ∀ st : ExecState, ExecProv log0 S st.log →
      ExecProv log0 S (srcs.foldl (execSource E cfg reg) st).log := by
  intro srcs
  induction srcs with
  | nil => exact fun _ st h => h
  | cons s rest ih =>
      intro hsub st h
      exact ih (fun t ht => hsub t (List.mem_cons_of_mem _ ht)) _
        (execProv_execSource (hsub s (List.mem_cons_self _ _)) h)

theorem execProv_foldl_entries {log0 : DiagLog} {S : List DocumentSource}
    {E cfg reg} :
    ∀ (entries : List (String × List DocumentSource)),
      (∀ e ∈ entries, ∀ t ∈ e.2, t ∈ S) →
      ∀ st : ExecState, ExecProv log0 S st.log →
      ExecProv log0 S
        ((entries.foldl (fun st e => e.2.foldl (execSource E cfg reg) st) st)).log := by
  intro entries
  induction entries with
  | nil => exact fun _ st h => h
  | cons e rest ih =>
      intro hsub st h
      exact ih (fun e' he' => hsub e' (List.mem_cons_of_mem _ he')) _
        (execProv_foldl_bucket e.2 (hsub e (List.mem_cons_self _ _)) st h)

/-- Provenance of the whole normalization/ID loop. -/
theorem execProv_execStateOf {E cfg input} :
    ExecProv (valLogOf input) input.sources (execStateOf E cfg input).log := by
  unfold execStateOf execAll
  exact execProv_foldl_entries _
    (fun e he t ht => (sortedEntries_collect_sound he t ht).1) _
    (fun d hd => .inl hd)

theorem execSource_ops {E cfg reg} {st : ExecState} {s} :
    (execSource E cfg reg st s).ops = st.ops ++ (pushedOp E cfg reg s).toList := by
  cases hn : s.node with
  | none => simp [execSource, pushedOp, hn]
  | some d =>
      cases he : E.expand reg d with
      | error e => simp [execSource, pushedOp, hn, he]
      | ok q =>
          simp only [execSource, pushedOp, hn, he, execLink]
          split <;> simp

theorem foldl_bucket_ops {E cfg reg} :
    ∀ (srcs : List DocumentSource) (st : ExecState),
      (srcs.foldl (execSource E cfg reg) st).ops
        = st.ops ++ srcs.filterMap (pushedOp E cfg reg) := by
  intro srcs
  induction srcs with
  | nil => intro st; simp
  | cons s rest ih =>
      intro st
      rw [List.foldl_cons, ih, execSource_ops]
      cases hp : pushedOp E cfg reg s <;> simp [hp, List.filterMap_cons]

theorem foldl_entries_ops {E cfg reg} :
    ∀ (entries : List (String × List DocumentSource)) (st : ExecState),
      ((entries.foldl (fun st e => e.2.foldl (execSource E cfg reg) st) st)).ops
        = st.ops ++ concatMap (fun e => e.2.filterMap (pushedOp E cfg reg)) entries := by
  intro entries
  induction entries with
  | nil => intro st; simp [concatMap]
  | cons e rest ih =>
      intro st
      rw [List.foldl_cons, ih, foldl_bucket_ops]
      simp [concatMap]

/-- The manifest operations are exactly the pushed entries of the
name-sorted buckets, flattened in order. -/
theorem execAll_ops {E cfg reg entries log0} :
    (execAll E cfg reg entries log0).ops
      = concatMap (fun e => e.2.filterMap (pushedOp E cfg reg))
          (sortedEntries entries) := by
  unfold execAll
  rw [foldl_entries_ops]
  simp

/-! ## Unfolding the pipeline result -/

theorem runGenerate_error_of_gate1 {E cfg input}
    (h : gateFires (files1Of input) (valLogOf input) = true) :
    runGenerate E cfg input = .error 1 := by
  simp [runGenerate, h]

theorem runGenerate_error_of_gate2 {E cfg input}
    (h : gateFires (files2Of input) (execStateOf E cfg input).log = true) :
    runGenerate E cfg input = .error 1 := by
  unfold runGenerate
  split
  · rfl
  · simp [h]

theorem runGenerate_ok_iff {E cfg input m} :
    runGenerate E cfg input = .ok m ↔
      gateFires (files1Of input) (valLogOf input) = false ∧
      gateFires (files2Of input) (execStateOf E cfg input).log = false ∧
      m = ⟨"apollo-persisted-query-manifest", 1, (execStateOf E cfg input).ops⟩ := by
  unfold runGenerate
  cases h1 : gateFires (files1Of input) (valLogOf input) with
  | true => simp
  | false =>
      cases h2 : gateFires (files2Of input) (execStateOf E cfg input).log with
      | true => simp
      | false => simp [eq_comm]

/-! ## Where the gate-time diagnostics live -/

theorem valLog_files {input : CorpusInput}
    (hinit : ∀ d ∈ input.initialLog, d.fileId ∈ srcFileIds input.sources) :
    ∀ d ∈ valLogOf input, d.fileId ∈ srcFileIds input.sources := by
  intro d hd
  unfold valLogOf at hd
  split at hd
  · exact hinit d hd
  · rcases validate_sound.2 d hd with h | h
    · exact hinit d h
    · exact h.2.1

theorem execLog_files {E cfg input}
    (hinit : ∀ d ∈ input.initialLog, d.fileId ∈ srcFileIds input.sources) :
    ∀ d ∈ (execStateOf E cfg input).log, d.fileId ∈ files2Of input := by
  intro d hd
  rcases execProv_execStateOf d hd with h | h
  · exact mem_files2_iff.2 (.inl (valLog_files hinit d h))
  · rcases h.2 with ⟨hf, _⟩ | ⟨hf, _⟩
    · exact mem_files2_iff.2 (.inl hf)
    · exact mem_files2_iff.2 (.inr hf)

theorem valLog_fatal {input : CorpusInput}
    (hinit : ∀ d ∈ input.initialLog, d.fatal = true) :
    ∀ d ∈ valLogOf input, d.fatal = true := by
  intro d hd
  unfold valLogOf at hd
  split at hd
  · exact hinit d hd
  · rcases validate_sound.2 d hd with h | h
    · exact hinit d h
    · exact h.1

theorem execLog_fatal {E cfg input}
    (hinit : ∀ d ∈ input.initialLog, d.fatal = true) :
    ∀ d ∈ (execStateOf E cfg input).log, d.fatal = true := by
  intro d hd
  rcases execProv_execStateOf d hd with h | h
  · exact valLog_fatal hinit d h
  · exact h.1

/-! ## Concrete objects used by the witnesses -/

/-- Trivial instantiation of the external collaborators: expansion is the
identity, printing returns the operation name, the hash is the identity. -/
def E0 : Externals :=
  ⟨fun _ d => .ok d, fun d => d, fun d => getOpName d, fun s => s⟩

/-- The default configuration: no custom id strategy, no output override. -/
def cfg0 : GenConfig := ⟨none, none⟩

def docAnon : DocumentNode := ⟨[.op ⟨none, .query, "f"⟩]⟩

def srcAnon : DocumentSource := ⟨some docAnon, 0, "anon.graphql"⟩

def inpAnon : CorpusInput := ⟨[srcAnon], [], false, none⟩

def docA : DocumentNode := ⟨[.op ⟨some "A", .query, "a"⟩]⟩

def docB : DocumentNode := ⟨[.op ⟨some "B", .query, "b"⟩]⟩

def srcA : DocumentSource := ⟨some docA, 0, "a.graphql"⟩

def srcB : DocumentSource := ⟨some docB, 1, "b.graphql"⟩

def inpAB : CorpusInput := ⟨[srcB, srcA], [], false, none⟩

/-! ## C1 -/

/-- C1: if any file carries a (fatal) diagnostic at either check gate, the
pipeline exits with status 1; and whenever `generatePersistedQueryManifest`
returns a manifest, the post-normalization log — which contains every
diagnostic recorded anywhere in the corpus or on the config — is empty, so
no manifest is ever produced while a fatal diagnostic exists. -/
theorem claim1_fatal_diagnostics_abort (E : Externals) (cfg : GenConfig)
    (input : CorpusInput)
    (hinit : ∀ d ∈ input.initialLog, d.fileId ∈ srcFileIds input.sources) :
    (gateFires (files1Of input) (valLogOf input) = true →
        runGenerate E cfg input = .error 1) ∧
    (gateFires (files2Of input) (execStateOf E cfg input).log = true →
        runGenerate E cfg input = .error 1) ∧
    (∀ m, runGenerate E cfg input = .ok m → (execStateOf E cfg input).log = []) := by
  refine ⟨runGenerate_error_of_gate1, runGenerate_error_of_gate2, ?_⟩
  intro m hm
  have h2 := (runGenerate_ok_iff.1 hm).2.1
  cases hlog : (execStateOf E cfg input).log with
  | nil => rfl
  | cons d rest =>
      exfalso
      have : gateFires (files2Of input) (execStateOf E cfg input).log = true :=
        gateFires_iff.2 ⟨d, by rw [hlog]; exact List.mem_cons_self _ _,
          execLog_files hinit d (by rw [hlog]; exact List.mem_cons_self _ _)⟩
      rw [h2] at this
      cases this

/-- C1 witness at a corpus with an anonymous operation. -/
theorem claim1_witness :
    (gateFires (files1Of inpAnon) (valLogOf inpAnon) = true →
        runGenerate E0 cfg0 inpAnon = .error 1) ∧
    (gateFires (files2Of inpAnon) (execStateOf E0 cfg0 inpAnon).log = true →
        runGenerate E0 cfg0 inpAnon = .error 1) ∧
    (∀ m, runGenerate E0 cfg0 inpAnon = .ok m →
        (execStateOf E0 cfg0 inpAnon).log = []) :=
  claim1_fatal_diagnostics_abort E0 cfg0 inpAnon (by simp [inpAnon])

/-! ## C9 -/

/-- C9: every diagnostic the generator records is created with
`fatal = true` (given that load-time diagnostics are fatal too, as both
loaders create them through `addError`), so the abort gate — which fires on
any recorded message regardless of its flag — fires exactly when a fatal
diagnostic exists, at both gate points. -/
theorem claim9_recorded_diagnostics_fatal (E : Externals) (cfg : GenConfig)
    (input : CorpusInput)
    (hinit : ∀ d ∈ input.initialLog, d.fatal = true) :
    (∀ d ∈ (execStateOf E cfg input).log, d.fatal = true) ∧
    (gateFires (files1Of input) (valLogOf input) = true ↔
      ∃ d ∈ valLogOf input, d.fileId ∈ files1Of input ∧ d.fatal = true) ∧
    (gateFires (files2Of input) (execStateOf E cfg input).log = true ↔
      ∃ d ∈ (execStateOf E cfg input).log,
        d.fileId ∈ files2Of input ∧ d.fatal = true) := by
  refine ⟨execLog_fatal hinit, ⟨?_, ?_⟩, ⟨?_, ?_⟩⟩
  · intro h
    obtain ⟨d, hd, hf⟩ := gateFires_iff.1 h
    exact ⟨d, hd, hf, valLog_fatal hinit d hd⟩
  · rintro ⟨d, hd, hf, _⟩
    exact gateFires_iff.2 ⟨d, hd, hf⟩
  · intro h
    obtain ⟨d, hd, hf⟩ := gateFires_iff.1 h
    exact ⟨d, hd, hf, execLog_fatal hinit d hd⟩
  · rintro ⟨d, hd, hf, _⟩
    exact gateFires_iff.2 ⟨d, hd, hf⟩

/-- C9 witness at a corpus with an anonymous operation (so that a
diagnostic actually exists at both gates). -/
theorem claim9_witness :
    (∀ d ∈ (execStateOf E0 cfg0 inpAnon).log, d.fatal = true) ∧
    (gateFires (files1Of inpAnon) (valLogOf inpAnon) = true ↔
      ∃ d ∈ valLogOf inpAnon, d.fileId ∈ files1Of inpAnon ∧ d.fatal = true) ∧
    (gateFires (files2Of inpAnon) (execStateOf E0 cfg0 inpAnon).log = true ↔
      ∃ d ∈ (execStateOf E0 cfg0 inpAnon).log,
        d.fileId ∈ files2Of inpAnon ∧ d.fatal = true) :=
  claim9_recorded_diagnostics_fatal E0 cfg0 inpAnon (by simp [inpAnon])

/-! ## Membership in the flattened manifest output -/

theorem mem_concatMap {α β : Type} {f : α → List β} {l : List α} {b : β} :
    b ∈ concatMap f l ↔ ∃ a ∈ l, b ∈ f a := by
  induction l with
  | nil => simp [concatMap]
  | cons x xs ih =>
      simp only [concatMap, List.mem_append, ih, List.mem_cons]
      constructor
      · rintro (h | ⟨a, ha, hb⟩)
        · exact ⟨x, .inl rfl, h⟩
        · exact ⟨a, .inr ha, hb⟩
      · rintro ⟨a, rfl | ha, hb⟩
        · exact .inl hb
        · exact .inr ⟨a, ha, hb⟩

theorem pushedOp_eq_some {E cfg reg} {s : DocumentSource} {op}
    (h : pushedOp E cfg reg s = some op) :
    ∃ d q, s.node = some d ∧ E.expand reg d = .ok q ∧
      op = ⟨makeOperationId E cfg (E.printDoc (E.sortTop q)) (getOpName q)
              (getOpType q), getOpName q, getOpType q,
            E.printDoc (E.sortTop q)⟩ := by
  cases hn : s.node with
  | none => simp [pushedOp, hn] at h
  | some d =>
      cases he : E.expand reg d with
      | error e => simp [pushedOp, hn, he] at h
      | ok q =>
          simp only [pushedOp, hn, he, Option.some.injEq] at h
          exact ⟨d, q, rfl, he, h.symm⟩

/-! ## C3 -/

/-- C3: with no custom `createOperationId`, every manifest operation's id
is the sha256 hex digest of its body, and the body is the canonical
printed text (after `sortTopLevelDefinitions`) of the fragment-expanded
query obtained from one of the corpus sources. -/
theorem claim3_default_id_is_hash (E : Externals) (out : Option String)
    (input : CorpusInput) (m : PersistedQueryManifest)
    (hrun : runGenerate E ⟨none, out⟩ input = .ok m) :
    ∀ op ∈ m.operations,
      op.id = E.sha256hex op.body ∧
      ∃ s ∈ input.sources, ∃ d q, s.node = some d ∧
        E.expand (effRegOf input) d = .ok q ∧
        op.body = E.printDoc (E.sortTop q) ∧ op.name = getOpName q ∧
        op.opType = getOpType q := by
  intro op hop
  have hm := (runGenerate_ok_iff.1 hrun).2.2
  subst hm
  simp only [execStateOf, execAll_ops] at hop
  obtain ⟨e, he, hfe⟩ := mem_concatMap.1 hop
  obtain ⟨s, hse, hps⟩ := List.mem_filterMap.1 hfe
  obtain ⟨d, q, hnd, hq, rfl⟩ := pushedOp_eq_some hps
  have hsS := (sortedEntries_collect_sound he s hse).1
  exact ⟨rfl, s, hsS, d, q, hnd, hq, rfl, rfl, rfl⟩

/-- The manifest of the two-query corpus under the trivial externals. -/
def mAB : PersistedQueryManifest :=
  ⟨"apollo-persisted-query-manifest", 1,
    [⟨"A", "A", .query, "A"⟩, ⟨"B", "B", .query, "B"⟩]⟩

/-- The first operation of that manifest. -/
def opA0 : PersistedQueryManifestOperation := ⟨"A", "A", .query, "A"⟩

/-- C3 witness: the concrete two-query corpus, discovered in reverse
order, with the default id strategy, at the manifest's first operation. -/
theorem claim3_witness :
    opA0 ∈ mAB.operations ∧
    (opA0.id = E0.sha256hex opA0.body ∧
      ∃ s ∈ inpAB.sources, ∃ d q, s.node = some d ∧
        E0.expand (effRegOf inpAB) d = .ok q ∧
        opA0.body = E0.printDoc (E0.sortTop q) ∧ opA0.name = getOpName q ∧
        opA0.opType = getOpType q) :=
  ⟨by decide,
    claim3_default_id_is_hash E0 none inpAB mAB (by rfl) opA0 (by decide)⟩

/-! ## Anonymous operations under glob validation -/

def isAnonMsg : Message → Bool
  | .anonymousOperation _ => true
  | _ => false

def isAnonOrMultiMsg : Message → Bool
  | .anonymousOperation _ => true
  | .multipleOperations => true
  | _ => false

/-- `opDefs` over a raw definition list. -/
def opDefsL (defs : List Definition) : List OperationDef :=
  defs.filterMap (fun df =>
    match df with
    | .op o => some o
    | .frag _ => none)

theorem opDefs_eq_opDefsL {d : DocumentNode} : opDefs d = opDefsL d.definitions :=
  rfl

/-- Walking a source that still contains an anonymous operation definition
always records `anonymousOperation` or `multipleOperations` (fatal, against
the source's own file): the anonymous operation is hit directly when it is
the first operation, and the `++documentCount > 1` break reports the source
otherwise. -/
theorem visitDefs_anon_hits {s : DocumentSource} :
    ∀ (defs : List Definition) (c : Nat) (log : DiagLog) (reg : Registries),
      (∃ o ∈ opDefsL defs, o.name = none) →
      ∃ dg ∈ (visitDefs s defs c log reg).1,
        dg.fileId = FileId.src s.fileUid ∧ dg.fatal = true ∧
        isAnonOrMultiMsg dg.message = true := by
  intro defs
  induction defs with
  | nil =>
      intro c log reg h
      obtain ⟨o, ho, _⟩ := h
      simp [opDefsL] at ho
  | cons df rest ih =>
      intro c log reg h
      match df with
      | .frag f =>
          refine ih c _ _ ?_
          obtain ⟨o, ho, hname⟩ := h
          exact ⟨o, ho, hname⟩
      | .op o =>
          simp only [visitDefs]
          split
          · exact ⟨⟨.src s.fileUid, .multipleOperations, true⟩,
              mem_addError.2 (.inr rfl), rfl, rfl, rfl⟩
          · match homn : o.name with
            | none =>
                have hdg : (⟨.src s.fileUid, .anonymousOperation o.opType, true⟩ :
                    Diagnostic) ∈ (visitDefs s rest (c + 1)
                      (addError log (.src s.fileUid)
                        (.anonymousOperation o.opType)) reg).1 :=
                  logLe_visitDefs.mem (mem_addError.2 (.inr rfl))
                exact ⟨_, hdg, rfl, rfl, rfl⟩
            | some nm =>
                refine ih (c + 1) _ _ ?_
                obtain ⟨o', ho', hname⟩ := h
                simp only [opDefsL, List.filterMap_cons] at ho'
                rcases List.mem_cons.1 ho' with rfl | ho'
                · rw [homn] at hname
                  cases hname
                · exact ⟨o', ho', hname⟩

/-- Lifting `visitDefs_anon_hits` through the whole validator walk. -/
theorem validate_anon_fatal (log0 : DiagLog) {sources : List DocumentSource}
    {s : DocumentSource} {d : DocumentNode} (hs : s ∈ sources)
    (hn : s.node = some d) (hanon : ∃ o ∈ opDefs d, o.name = none) :
    ∃ dg ∈ (validateSources log0 sources).1,
      dg.fileId = FileId.src s.fileUid ∧ dg.fatal = true ∧
      isAnonOrMultiMsg dg.message = true := by
  obtain ⟨l1, l2, rfl⟩ := List.append_of_mem hs
  rw [validateSources, List.foldl_append, List.foldl_cons]
  have hvs : visitSource (List.foldl visitSource (log0, emptyRegistries) l1) s
      = visitDefs s d.definitions 0
          (List.foldl visitSource (log0, emptyRegistries) l1).1
          (List.foldl visitSource (log0, emptyRegistries) l1).2 := by
    simp [visitSource, hn]
  rw [hvs]
  obtain ⟨dg, hdg, hfile, hfatal, hkind⟩ :=
    visitDefs_anon_hits d.definitions 0
      (List.foldl visitSource (log0, emptyRegistries) l1).1
      (List.foldl visitSource (log0, emptyRegistries) l1).2
      (opDefs_eq_opDefsL ▸ hanon)
  exact ⟨dg, (logLe_foldl_visitSource _).mem hdg, hfile, hfatal, hkind⟩

/-! ## C10 -/

/-- C10: with a custom documents source (validation skipped), a source
whose document only contains anonymous operations produces no validator
diagnostic anywhere (in particular no `anonymousOperation` message), is
silently skipped by the operation collection (so it contributes nothing to
the manifest), and cannot fire the first abort gate — unlike the glob
path, where the same source is reported with a fatal diagnostic. -/
theorem claim10_custom_source_skips_anonymous (E : Externals)
    (cfg : GenConfig) (sources : List DocumentSource)
    (freg : Option FragLookup) (s : DocumentSource) (d : DocumentNode)
    (hs : s ∈ sources) (hn : s.node = some d)
    (hanon : ∃ o ∈ opDefs d, o.name = none)
    (hnonamed : ∀ o ∈ opDefs d, o.name = none) :
    (∀ dg ∈ (execStateOf E cfg ⟨sources, [], true, freg⟩).log,
        isValMsg dg.message = false) ∧
    (∀ n, s ∉ mBucket (collectOps sources) n) ∧
    gateFires (files1Of ⟨sources, [], true, freg⟩)
      (valLogOf ⟨sources, [], true, freg⟩) = false ∧
    (∃ dg ∈ (validateSources [] sources).1,
        dg.fileId = FileId.src s.fileUid ∧ dg.fatal = true ∧
        isAnonOrMultiMsg dg.message = true) := by
  refine ⟨?_, ?_, ?_, validate_anon_fatal [] hs hn hanon⟩
  · intro dg hdg
    rcases execProv_execStateOf dg hdg with h | h
    · simp [valLogOf] at h
    · rcases h.2 with ⟨_, hkind⟩ | ⟨_, hkind⟩
      · cases hmsg : dg.message <;> simp_all [isExecErrorMsg, isValMsg]
      · cases hmsg : dg.message <;> simp_all [isUniqueIdMsg, isValMsg]
  · intro n hb
    have hdecl := (collSound_collectOps n s hb).2
    simp only [declaresOp, hn, List.any_eq_true, decide_eq_true_eq] at hdecl
    obtain ⟨o, ho, hname⟩ := hdecl
    rw [hnonamed o ho] at hname
    cases hname
  · simp [valLogOf, gateFires_nil]

/-- C10 witness: a custom source whose only document is `query { f }`. -/
theorem claim10_witness :
    (∀ dg ∈ (execStateOf E0 cfg0 ⟨[srcAnon], [], true, none⟩).log,
        isValMsg dg.message = false) ∧
    (∀ n, srcAnon ∉ mBucket (collectOps [srcAnon]) n) ∧
    gateFires (files1Of ⟨[srcAnon], [], true, none⟩)
      (valLogOf ⟨[srcAnon], [], true, none⟩) = false ∧
    (∃ dg ∈ (validateSources [] [srcAnon]).1,
        dg.fileId = FileId.src srcAnon.fileUid ∧ dg.fatal = true ∧
        isAnonOrMultiMsg dg.message = true) :=
  claim10_custom_source_skips_anonymous E0 cfg0 [srcAnon] none srcAnon docAnon
    (List.mem_cons_self _ _) rfl (by decide) (by decide)

/-! ## Properties of the string comparison -/

theorem charListLe_cons_iff {x y : Char} {xs ys : List Char} :
    charListLe (x :: xs) (y :: ys) = true ↔
      x < y ∨ (x = y ∧ charListLe xs ys = true) := by
  simp only [charListLe]
  by_cases h1 : x < y
  · simp [h1]
  · by_cases h2 : y < x
    · simp only [if_neg h1, if_pos h2, Bool.false_eq_true, false_iff]
      rintro (h | ⟨rfl, _⟩)
      · exact h1 h
      · exact lt_irrefl x h2
    · have hxy : x = y := le_antisymm (le_of_not_lt h2) (le_of_not_lt h1)
      subst hxy
      simp [lt_irrefl]

theorem charListLe_refl : ∀ a : List Char, charListLe a a = true := by
  intro a
  induction a with
  | nil => rfl
  | cons x xs ih => exact charListLe_cons_iff.2 (.inr ⟨rfl, ih⟩)

theorem charListLe_total : ∀ a b : List Char,
    charListLe a b = true ∨ charListLe b a = true := by
  intro a
  induction a with
  | nil => intro b; exact .inl rfl
  | cons x xs ih =>
      intro b
      cases b with
      | nil => exact .inr rfl
      | cons y ys =>
          by_cases h1 : x < y
          · exact .inl (charListLe_cons_iff.2 (.inl h1))
          · by_cases h2 : y < x
            · exact .inr (charListLe_cons_iff.2 (.inl h2))
            · have hxy : x = y := le_antisymm (le_of_not_lt h2) (le_of_not_lt h1)
              subst hxy
              rcases ih ys with h | h
              · exact .inl (charListLe_cons_iff.2 (.inr ⟨rfl, h⟩))
              · exact .inr (charListLe_cons_iff.2 (.inr ⟨rfl, h⟩))

theorem charListLe_trans : ∀ a b c : List Char, charListLe a b = true →
    charListLe b c = true → charListLe a c = true := by
  intro a
  induction a with
  | nil => intro b c _ _; rfl
  | cons x xs ih =>
      intro b c hab hbc
      cases b with
      | nil => simp [charListLe] at hab
      | cons y ys =>
          cases c with
          | nil => simp [charListLe] at hbc
          | cons z zs =>
              rcases charListLe_cons_iff.1 hab with h1 | ⟨rfl, h1⟩
              · rcases charListLe_cons_iff.1 hbc with h2 | ⟨rfl, h2⟩
                · exact charListLe_cons_iff.2 (.inl (lt_trans h1 h2))
                · exact charListLe_cons_iff.2 (.inl h1)
              · rcases charListLe_cons_iff.1 hbc with h2 | ⟨rfl, h2⟩
                · exact charListLe_cons_iff.2 (.inl h2)
                · exact charListLe_cons_iff.2 (.inr ⟨rfl, ih ys zs h1 h2⟩)

theorem charListLe_antisymm : ∀ a b : List Char, charListLe a b = true →
    charListLe b a = true → a = b := by
  intro a
  induction a with
  | nil =>
      intro b _ hba
      cases b with
      | nil => rfl
      | cons y ys => simp [charListLe] at hba
  | cons x xs ih =>
      intro b hab hba
      cases b with
      | nil => simp [charListLe] at hab
      | cons y ys =>
          rcases charListLe_cons_iff.1 hab with h1 | ⟨he1, h1⟩
          · rcases charListLe_cons_iff.1 hba with h2 | ⟨he2, h2⟩
            · exact absurd (lt_trans h1 h2) (lt_irrefl _)
            · rw [he2] at h1
              exact absurd h1 (lt_irrefl _)
          · rcases charListLe_cons_iff.1 hba with h2 | ⟨he2, h2⟩
            · rw [he1] at h2
              exact absurd h2 (lt_irrefl _)
            · rw [he1, ih ys h1 h2]

theorem str_data_ext {a b : String} (h : a.data = b.data) : a = b := by
  cases a
  cases b
  exact congrArg String.mk h

theorem strLe_refl (a : String) : strLeR a a := charListLe_refl a.data

theorem strLe_total (a b : String) : strLeR a b ∨ strLeR b a :=
  charListLe_total a.data b.data

theorem strLe_trans {a b c : String} (h1 : strLeR a b) (h2 : strLeR b c) :
    strLeR a c :=
  charListLe_trans a.data b.data c.data h1 h2

theorem strLe_antisymm {a b : String} (h1 : strLeR a b) (h2 : strLeR b a) :
    a = b :=
  str_data_ext (charListLe_antisymm a.data b.data h1 h2)

instance : IsTotal String strLeR := ⟨strLe_total⟩

instance : IsTrans String strLeR := ⟨fun _ _ _ => strLe_trans⟩

instance : IsAntisymm String strLeR := ⟨fun _ _ => strLe_antisymm⟩

instance : IsTotal (String × List DocumentSource) entryLeR :=
  ⟨fun a b => strLe_total a.1 b.1⟩

instance : IsTrans (String × List DocumentSource) entryLeR :=
  ⟨fun _ _ _ => strLe_trans⟩

theorem sorted_sortedEntries (m : List (String × List DocumentSource)) :
    List.Sorted entryLeR (sortedEntries m) :=
  List.sorted_insertionSort entryLeR m

/-! ## C2 -/

/-- A document whose operation definitions are exactly one, named `n`. -/
def singleNamedOp (d : DocumentNode) (n : String) : Prop :=
  ∃ o, opDefs d = [o] ∧ o.name = some n

/-- A well-formed (valid) source: at most one operation definition, and no
anonymous operation. -/
def wellFormedSource (s : DocumentSource) : Bool :=
  match s.node with
  | none => true
  | some d =>
      decide ((opDefs d).length ≤ 1) && (opDefs d).all (fun o => o.name.isSome)

/-- The normalization engine preserves operation names: expanding a
single-operation document named `n` yields a document whose (first)
operation is still named `n`.  Fragment expansion does not rename
operations. -/
def PreservesNames (E : Externals) (reg : FragLookup) : Prop :=
  ∀ d q n, singleNamedOp d n → E.expand reg d = .ok q → getOpName q = n

theorem eq_singleton_of_mem_of_length_le {α : Type} {l : List α} {a : α}
    (ha : a ∈ l) (hl : l.length ≤ 1) : l = [a] := by
  cases l with
  | nil => cases ha
  | cons x xs =>
      cases xs with
      | nil =>
          rw [List.mem_singleton] at ha
          rw [ha]
      | cons y ys => simp at hl

theorem sorted_of_all_eq {l : List String} (a : String)
    (h : ∀ x ∈ l, x = a) : List.Sorted strLeR l := by
  induction l with
  | nil => exact List.sorted_nil
  | cons x xs ih =>
      rw [List.sorted_cons]
      refine ⟨fun b hb => ?_, ih (fun x hx => h x (List.mem_cons_of_mem _ hx))⟩
      rw [h x (List.mem_cons_self _ _), h b (List.mem_cons_of_mem _ hb)]
      exact strLe_refl a

/-- Flattening name-keyed segments of a key-sorted entry list gives a
name-sorted list. -/
theorem sorted_concatMap_names {entries : List (String × List DocumentSource)}
    {f : (String × List DocumentSource) → List PersistedQueryManifestOperation}
    (hsorted : List.Sorted entryLeR entries)
    (hkey : ∀ e ∈ entries, ∀ op ∈ f e, op.name = e.1) :
    List.Sorted strLeR
      ((concatMap f entries).map (fun op => op.name)) := by
  induction entries with
  | nil => exact List.sorted_nil
  | cons e rest ih =>
      rw [List.sorted_cons] at hsorted
      rw [concatMap, List.map_append]
      refine List.pairwise_append.2 ⟨?_, ?_, ?_⟩
      · refine sorted_of_all_eq e.1 ?_
        intro x hx
        obtain ⟨op, hop, rfl⟩ := List.mem_map.1 hx
        exact hkey e (List.mem_cons_self _ _) op hop
      · exact ih hsorted.2 (fun e' he' => hkey e' (List.mem_cons_of_mem _ he'))
      · intro x hx y hy
        obtain ⟨op, hop, rfl⟩ := List.mem_map.1 hx
        obtain ⟨op', hop', rfl⟩ := List.mem_map.1 hy
        obtain ⟨e', he', hfe'⟩ := mem_concatMap.1 hop'
        rw [hkey e (List.mem_cons_self _ _) op hop,
          hkey e' (List.mem_cons_of_mem _ he') op' hfe']
        exact hsorted.1 e' he'

/-- C2: every manifest produced by a valid (well-formed) run carries the
fixed envelope (`format`, `version = 1`) and its operations are sorted
lexicographically by operation name — by construction of the execution
order, not by discovery order. -/
theorem claim2_manifest_sorted_by_name (E : Externals) (cfg : GenConfig)
    (input : CorpusInput) (m : PersistedQueryManifest)
    (hpres : PreservesNames E (effRegOf input))
    (hwf : ∀ s ∈ input.sources, wellFormedSource s = true)
    (hrun : runGenerate E cfg input = .ok m) :
    m.format = "apollo-persisted-query-manifest" ∧ m.version = 1 ∧
    List.Sorted strLeR (m.operations.map (fun op => op.name)) := by
  obtain ⟨h1, h2, hm⟩ := runGenerate_ok_iff.1 hrun
  subst hm
  refine ⟨rfl, rfl, ?_⟩
  simp only [execStateOf, execAll_ops]
  refine sorted_concatMap_names (sorted_sortedEntries _) ?_
  intro e he op hop
  obtain ⟨s, hse, hps⟩ := List.mem_filterMap.1 hop
  have hsound := sortedEntries_collect_sound he s hse
  obtain ⟨d, q, hnd, hq, rfl⟩ := pushedOp_eq_some hps
  have hdecl := hsound.2
  simp only [declaresOp, hnd, List.any_eq_true, decide_eq_true_eq] at hdecl
  obtain ⟨o, ho, honame⟩ := hdecl
  have hwfs := hwf s hsound.1
  simp only [wellFormedSource, hnd, Bool.and_eq_true, decide_eq_true_eq] at hwfs
  have hsingle : opDefs d = [o] := eq_singleton_of_mem_of_length_le ho hwfs.1
  exact hpres d q e.1 ⟨o, hsingle, honame⟩ hq

/-- C2 witness at the two-query corpus, discovered in reverse name
order. -/
theorem claim2_witness :
    mAB.format = "apollo-persisted-query-manifest" ∧ mAB.version = 1 ∧
    List.Sorted strLeR (mAB.operations.map (fun op => op.name)) :=
  claim2_manifest_sorted_by_name E0 cfg0 inpAB mAB
    (by
      intro d q n hsingle he
      obtain ⟨o, ho, hn⟩ := hsingle
      cases he
      simp [getOpName, getOpDef, ho, hn])
    (by decide) (by rfl)

/-! ## The id-uniqueness check -/

theorem isUniqueIdMsg_eq_false_of_isValMsg {m : Message}
    (h : isValMsg m = true) : isUniqueIdMsg m = false := by
  cases m <;> simp_all [isValMsg, isUniqueIdMsg]

theorem isUniqueIdMsg_eq_false_of_isExecErrorMsg {m : Message}
    (h : isExecErrorMsg m = true) : isUniqueIdMsg m = false := by
  cases m <;> simp_all [isExecErrorMsg, isUniqueIdMsg]

theorem valLog_noUid {input : CorpusInput}
    (hinit : ∀ d ∈ input.initialLog, isUniqueIdMsg d.message = false) :
    ∀ d ∈ valLogOf input, isUniqueIdMsg d.message = false := by
  intro d hd
  unfold valLogOf at hd
  split at hd
  · exact hinit d hd
  · rcases validate_sound.2 d hd with h | h
    · exact hinit d h
    · exact isUniqueIdMsg_eq_false_of_isValMsg h.2.2

/-- Invariant of the execution loop tying `manifestOperationIds` to the
pushed operations and the recorded `uniqueOperationId` diagnostics. -/
def ExecIdInv (st : ExecState) : Prop :=
  (∀ i, (mapGet st.ids i).isSome = true ↔
      i ∈ st.ops.map (fun op => op.id)) ∧
  ((st.ops.map (fun op => op.id)).Nodup ∨
    ∃ dg ∈ st.log, dg.fileId = FileId.config ∧ dg.fatal = true ∧
      isUniqueIdMsg dg.message = true) ∧
  ((∀ dg ∈ st.log, isUniqueIdMsg dg.message = false) ∨
    ¬ (st.ops.map (fun op => op.id)).Nodup)

theorem execIdInv_execLink {E cfg} {st : ExecState} {body name ty}
    (h : ExecIdInv st) : ExecIdInv (execLink E cfg st body name ty) := by
  obtain ⟨hkeys, hnodup, hfree⟩ := h
  simp only [execLink]
  cases hg : mapGet st.ids (makeOperationId E cfg body name ty) with
  | some prev =>
      refine ⟨?_, ?_, ?_⟩
      · intro i
        by_cases hi : i = makeOperationId E cfg body name ty
        · subst hi
          simp [hg, List.map_append]
        · simp only [List.map_append, List.mem_append, List.map_cons,
            List.map_nil, List.mem_singleton]
          rw [← hkeys i]
          simp [hi]
      · exact .inr ⟨_, mem_addError.2 (.inr rfl), rfl, rfl, rfl⟩
      · refine .inr ?_
        intro hnd
        have hid : makeOperationId E cfg body name ty
            ∈ st.ops.map (fun op => op.id) := by
          rw [← hkeys]
          simp [hg]
        rw [List.map_append] at hnd
        rcases List.nodup_append.1 hnd with ⟨_, _, hdisj⟩
        exact hdisj hid (by simp)
  | none =>
      refine ⟨?_, ?_, ?_⟩
      · intro i
        by_cases hi : i = makeOperationId E cfg body name ty
        · subst hi
          simp [mapGet_mapSet_self, List.map_append]
        · rw [mapGet_mapSet_ne _ _ hi]
          simp only [List.map_append, List.mem_append, List.map_cons,
            List.map_nil, List.mem_singleton]
          rw [← hkeys i]
          simp [hi]
      · rcases hnodup with hnd | hdg
        · refine .inl ?_
          rw [List.map_append]
          refine List.nodup_append.2 ⟨hnd, by simp, ?_⟩
          intro a ha hb
          simp only [List.map_cons, List.map_nil, List.mem_singleton] at hb
          subst hb
          have : (mapGet st.ids (makeOperationId E cfg body name ty)).isSome
              = true := (hkeys _).2 ha
          rw [hg] at this
          cases this
        · exact .inr hdg
      · rcases hfree with hfr | hnd
        · exact .inl hfr
        · refine .inr ?_
          intro hnd'
          rw [List.map_append] at hnd'
          exact hnd ((List.sublist_append_left _ _).nodup hnd')

theorem execIdInv_execSource {E cfg reg} {st : ExecState} {s}
    (h : ExecIdInv st) : ExecIdInv (execSource E cfg reg st s) := by
  obtain ⟨hkeys, hnodup, hfree⟩ := h
  simp only [execSource]
  split
  · exact ⟨hkeys, hnodup, hfree⟩
  · split
    · refine ⟨hkeys, ?_, ?_⟩
      · rcases hnodup with hnd | ⟨dg, hdg, hrest⟩
        · exact .inl hnd
        · exact .inr ⟨dg, mem_addError.2 (.inl hdg), hrest⟩
      · rcases hfree with hfr | hnd
        · refine .inl ?_
          intro dg hdg
          rcases mem_addError.1 hdg with hdg | rfl
          · exact hfr dg hdg
          · rfl
        · exact .inr hnd
    · exact execIdInv_execLink ⟨hkeys, hnodup, hfree⟩

theorem execIdInv_foldl_bucket {E cfg reg} :
    ∀ (srcs : List DocumentSource) (st : ExecState), ExecIdInv st →
      ExecIdInv (srcs.foldl (execSource E cfg reg) st) := by
  intro srcs
  induction srcs with
  | nil => exact fun st h => h
  | cons s rest ih => exact fun st h => ih _ (execIdInv_execSource h)

theorem execIdInv_foldl_entries {E cfg reg} :
    ∀ (entries : List (String × List DocumentSource)) (st : ExecState),
      ExecIdInv st →
      ExecIdInv (entries.foldl (fun st e => e.2.foldl (execSource E cfg reg) st) st) := by
  intro entries
  induction entries with
  | nil => exact fun st h => h
  | cons e rest ih => exact fun st h => ih _ (execIdInv_foldl_bucket e.2 st h)

theorem execIdInv_execStateOf (E : Externals) (cfg : GenConfig)
    (input : CorpusInput)
    (hinit : ∀ d ∈ input.initialLog, isUniqueIdMsg d.message = false) :
    ExecIdInv (execStateOf E cfg input) := by
  unfold execStateOf execAll
  refine execIdInv_foldl_entries _ _ ⟨?_, ?_, ?_⟩
  · intro i
    simp [mapGet]
  · exact .inl (by simp)
  · exact .inl (valLog_noUid hinit)

/-- With the default strategy every pushed id is the hash of its body. -/
theorem ops_id_eq_sha {E cfg input} (hdef : cfg.createOperationId = none) :
    ∀ op ∈ (execStateOf E cfg input).ops, op.id = E.sha256hex op.body := by
  intro op hop
  simp only [execStateOf, execAll_ops] at hop
  obtain ⟨e, he, hfe⟩ := mem_concatMap.1 hop
  obtain ⟨s, hse, hps⟩ := List.mem_filterMap.1 hfe
  obtain ⟨d, q, hnd, hq, rfl⟩ := pushedOp_eq_some hps
  simp [makeOperationId, hdef]

/-! ## C5 -/

def srcA2 : DocumentSource := ⟨some docA, 2, "a2.json"⟩

def inpDupA : CorpusInput := ⟨[srcA, srcA2], [], true, none⟩

/-- C5 counterexample: the claim says the id-uniqueness check is *skipped*
when no custom `createOperationId` strategy and no config file are in
play.  In the final revision the check is unconditional: a custom-source
corpus with two identical named documents, run with the default strategy
and no config file, records a `uniqueOperationId` diagnostic on the
virtual config file and aborts — a skipped check could never do either. -/
theorem claim5_counterexample :
    cfg0.createOperationId = none ∧
    runGenerate E0 cfg0 inpDupA = .error 1 ∧
    (⟨FileId.config, .uniqueOperationId "A" "A" "A", true⟩ : Diagnostic)
      ∈ (execStateOf E0 cfg0 inpDupA).log := by
  refine ⟨rfl, by rfl, by decide⟩

/-- C5 (amended): the id-uniqueness check always runs.  Whenever two
pushed operations share an id, a fatal `uniqueOperationId` diagnostic is
recorded on the virtual config-level file and the pipeline aborts with
exit 1; `uniqueOperationId` diagnostics are only ever attached to the
config file, never to an operation's own file; and with the default
strategy the check can only fire when two operations have identical
canonical bodies (for distinct bodies and a collision-free hash it stays
silent, matching the intended skipped behavior). -/
theorem claim5_amended_id_collision (E : Externals) (cfg : GenConfig)
    (input : CorpusInput)
    (hinit : ∀ d ∈ input.initialLog, isUniqueIdMsg d.message = false) :
    (¬ ((execStateOf E cfg input).ops.map (fun op => op.id)).Nodup →
        runGenerate E cfg input = .error 1 ∧
        ∃ dg ∈ (execStateOf E cfg input).log, dg.fileId = FileId.config ∧
          dg.fatal = true ∧ isUniqueIdMsg dg.message = true) ∧
    (∀ dg ∈ (execStateOf E cfg input).log, isUniqueIdMsg dg.message = true →
        dg.fileId = FileId.config) ∧
    (cfg.createOperationId = none → Function.Injective E.sha256hex →
      ((execStateOf E cfg input).ops.map (fun op => op.body)).Nodup →
      ∀ dg ∈ (execStateOf E cfg input).log,
        isUniqueIdMsg dg.message = false) := by
  have hinv := execIdInv_execStateOf E cfg input hinit
  refine ⟨?_, ?_, ?_⟩
  · intro hdup
    have hdg := hinv.2.1.resolve_left hdup
    obtain ⟨dg, hdgmem, hcfg, hfatal, huid⟩ := hdg
    refine ⟨?_, dg, hdgmem, hcfg, hfatal, huid⟩
    refine runGenerate_error_of_gate2 (gateFires_iff.2 ⟨dg, hdgmem, ?_⟩)
    rw [hcfg]
    exact mem_files2_iff.2 (.inr rfl)
  · intro dg hdg huid
    rcases execProv_execStateOf dg hdg with h | h
    · rw [valLog_noUid hinit dg h] at huid
      cases huid
    · rcases h.2 with ⟨_, hkind⟩ | ⟨hcfg, _⟩
      · rw [isUniqueIdMsg_eq_false_of_isExecErrorMsg hkind] at huid
        cases huid
      · exact hcfg
  · intro hdef hinj hbodies
    have hids : ((execStateOf E cfg input).ops.map (fun op => op.id)).Nodup := by
      have hmapeq : (execStateOf E cfg input).ops.map (fun op => op.id)
          = ((execStateOf E cfg input).ops.map (fun op => op.body)).map
              E.sha256hex := by
        rw [List.map_map]
        exact List.map_congr_left (fun op hop => ops_id_eq_sha hdef op hop)
      rw [hmapeq]
      exact hbodies.map hinj
    rcases hinv.2.2 with hfr | hnd
    · exact hfr
    · exact absurd hids hnd

/-- C5 amended witness: the duplicate-document corpus fires the check and
aborts. -/
theorem claim5_amended_witness :
    runGenerate E0 cfg0 inpDupA = .error 1 ∧
    ∃ dg ∈ (execStateOf E0 cfg0 inpDupA).log, dg.fileId = FileId.config ∧
      dg.fatal = true ∧ isUniqueIdMsg dg.message = true :=
  (claim5_amended_id_collision E0 cfg0 inpDupA (by simp [inpDupA])).1
    (by decide)

/-! ## Bucket monotonicity through the validator walk -/

theorem fragBucket_mono_visitDefs {s : DocumentSource} :
    ∀ (defs : List Definition) (c : Nat) (log : DiagLog) (reg : Registries)
      {n : String} {t : DocumentSource}, t ∈ fragBucket reg n →
      t ∈ fragBucket (visitDefs s defs c log reg).2 n := by
  intro defs
  induction defs with
  | nil =>
      intro c log reg n t ht
      exact ht
  | cons df rest ih =>
      intro c log reg n t ht
      match df with
      | .frag f =>
          refine ih c _ _ ?_
          by_cases hn : n = f.name
          · subst hn
            rw [fragBucket_update_self]
            exact List.mem_append_left _ ht
          · rw [fragBucket_update_ne _ _ hn]
            exact ht
      | .op o =>
          simp only [visitDefs]
          split
          · exact ht
          · match o.name with
            | none => exact ih (c + 1) _ _ ht
            | some nm =>
                refine ih (c + 1) _ _ ?_
                rw [fragBucket_update_op]
                exact ht

theorem opBucket_mono_visitDefs {s : DocumentSource} :
    ∀ (defs : List Definition) (c : Nat) (log : DiagLog) (reg : Registries)
      {n : String} {t : DocumentSource}, t ∈ opBucket reg n →
      t ∈ opBucket (visitDefs s defs c log reg).2 n := by
  intro defs
  induction defs with
  | nil =>
      intro c log reg n t ht
      exact ht
  | cons df rest ih =>
      intro c log reg n t ht
      match df with
      | .frag f =>
          refine ih c _ _ ?_
          rw [opBucket_update_frag]
          exact ht
      | .op o =>
          simp only [visitDefs]
          split
          · exact ht
          · match o.name with
            | none => exact ih (c + 1) _ _ ht
            | some nm =>
                refine ih (c + 1) _ _ ?_
                by_cases hn : n = nm
                · subst hn
                  rw [opBucket_update_self]
                  exact List.mem_append_left _ ht
                · rw [opBucket_update_ne _ _ hn]
                  exact ht

theorem fragBucket_mono_visitSource {st : DiagLog × Registries}
    {s : DocumentSource} {n t} (ht : t ∈ fragBucket st.2 n) :
    t ∈ fragBucket (visitSource st s).2 n := by
  simp only [visitSource]
  split
  · exact ht
  · exact fragBucket_mono_visitDefs _ _ _ _ ht

theorem opBucket_mono_visitSource {st : DiagLog × Registries}
    {s : DocumentSource} {n t} (ht : t ∈ opBucket st.2 n) :
    t ∈ opBucket (visitSource st s).2 n := by
  simp only [visitSource]
  split
  · exact ht
  · exact opBucket_mono_visitDefs _ _ _ _ ht

theorem fragBucket_mono_foldl {l : List DocumentSource} :
    ∀ {st : DiagLog × Registries} {n t}, t ∈ fragBucket st.2 n →
      t ∈ fragBucket (l.foldl visitSource st).2 n := by
  induction l with
  | nil => exact fun ht => ht
  | cons s rest ih => exact fun ht => ih (fragBucket_mono_visitSource ht)

theorem opBucket_mono_foldl {l : List DocumentSource} :
    ∀ {st : DiagLog × Registries} {n t}, t ∈ opBucket st.2 n →
      t ∈ opBucket (l.foldl visitSource st).2 n := by
  induction l with
  | nil => exact fun ht => ht
  | cons s rest ih => exact fun ht => ih (opBucket_mono_visitSource ht)

/-! ## Registration of a source's own declarations (no break) -/

theorem visitDefs_registers_frag {s : DocumentSource} :
    ∀ (defs : List Definition) (c : Nat) (log : DiagLog) (reg : Registries)
      (f : FragmentDef), c + (opDefsL defs).length ≤ 1 →
      Definition.frag f ∈ defs →
      s ∈ fragBucket (visitDefs s defs c log reg).2 f.name := by
  intro defs
  induction defs with
  | nil =>
      intro c log reg f _ hf
      cases hf
  | cons df rest ih =>
      intro c log reg f hc hf
      match df with
      | .frag g =>
          rcases List.mem_cons.1 hf with he | hf
          · have hfg : f = g := by injection he
            subst hfg
            refine fragBucket_mono_visitDefs rest c _ _ ?_
            rw [fragBucket_update_self]
            exact List.mem_append_right _ (List.mem_singleton.2 rfl)
          · refine ih c _ _ f ?_ hf
            simpa [opDefsL, List.filterMap_cons] using hc
      | .op o =>
          have hlen : (opDefsL (Definition.op o :: rest)).length
              = (opDefsL rest).length + 1 := by
            simp [opDefsL, List.filterMap_cons]
          rw [hlen] at hc
          have hc0 : c = 0 := by omega
          subst hc0
          simp only [visitDefs]
          rw [if_neg (by omega)]
          rcases List.mem_cons.1 hf with he | hf
          · cases he
          · match o.name with
            | none => exact ih 1 _ _ f (by omega) hf
            | some nm => exact ih 1 _ _ f (by omega) hf

theorem visitDefs_registers_op {s : DocumentSource} :
    ∀ (defs : List Definition) (c : Nat) (log : DiagLog) (reg : Registries)
      (o : OperationDef) (nm : String), c + (opDefsL defs).length ≤ 1 →
      Definition.op o ∈ defs → o.name = some nm →
      s ∈ opBucket (visitDefs s defs c log reg).2 nm := by
  intro defs
  induction defs with
  | nil =>
      intro c log reg o nm _ ho _
      cases ho
  | cons df rest ih =>
      intro c log reg o nm hc ho hname
      match df with
      | .frag g =>
          rcases List.mem_cons.1 ho with he | ho
          · cases he
          · refine ih c _ _ o nm ?_ ho hname
            simpa [opDefsL, List.filterMap_cons] using hc
      | .op o' =>
          have hlen : (opDefsL (Definition.op o' :: rest)).length
              = (opDefsL rest).length + 1 := by
            simp [opDefsL, List.filterMap_cons]
          rw [hlen] at hc
          have hc0 : c = 0 := by omega
          subst hc0
          simp only [visitDefs]
          rw [if_neg (by omega)]
          rcases List.mem_cons.1 ho with he | ho
          · have hoo : o = o' := by injection he
            subst hoo
            rw [hname]
            refine opBucket_mono_visitDefs rest 1 _ _ ?_
            rw [opBucket_update_self]
            exact List.mem_append_right _ (List.mem_singleton.2 rfl)
          · exfalso
            have : Definition.op o ∈ rest := ho
            have hmem : o ∈ opDefsL rest := by
              simp only [opDefsL, List.mem_filterMap]
              exact ⟨Definition.op o, this, rfl⟩
            have : 0 < (opDefsL rest).length := List.length_pos.2 (by
              intro hnil
              rw [hnil] at hmem
              cases hmem)
            omega

/-! ## The symmetric duplicate-name fan-out -/

theorem mem_addDupErrors (s : DocumentSource) (mk : String → Message) :
    ∀ (bucket : List DocumentSource) (log : DiagLog) (t : DocumentSource),
      t ∈ bucket →
      (⟨FileId.src s.fileUid, mk t.filePath, true⟩ : Diagnostic)
        ∈ addDupErrors s bucket mk log ∧
      (⟨FileId.src t.fileUid, mk s.filePath, true⟩ : Diagnostic)
        ∈ addDupErrors s bucket mk log := by
  intro bucket
  induction bucket with
  | nil =>
      intro log t ht
      cases ht
  | cons sib rest ih =>
      intro log t ht
      rcases List.mem_cons.1 ht with rfl | ht
      · constructor
        · exact logLe_addDupErrors.mem
            (mem_addError.2 (.inl (mem_addError.2 (.inr rfl))))
        · exact logLe_addDupErrors.mem (mem_addError.2 (.inr rfl))
      · exact ih _ t ht

theorem visitDefs_dup_frag (s t : DocumentSource) :
    ∀ (defs : List Definition) (c : Nat) (log : DiagLog) (reg : Registries)
      (f : FragmentDef), c + (opDefsL defs).length ≤ 1 →
      Definition.frag f ∈ defs → t ∈ fragBucket reg f.name →
      (⟨FileId.src s.fileUid, .uniqueFragment f.name t.filePath, true⟩ :
          Diagnostic) ∈ (visitDefs s defs c log reg).1 ∧
      (⟨FileId.src t.fileUid, .uniqueFragment f.name s.filePath, true⟩ :
          Diagnostic) ∈ (visitDefs s defs c log reg).1 := by
  intro defs
  induction defs with
  | nil =>
      intro c log reg f _ hf _
      cases hf
  | cons df rest ih =>
      intro c log reg f hc hf ht
      match df with
      | .frag g =>
          rcases List.mem_cons.1 hf with he | hf
          · have hfg : f = g := by injection he
            subst hfg
            have hmem := mem_addDupErrors s
              (fun p => Message.uniqueFragment f.name p)
              (fragBucket reg f.name) log t ht
            exact ⟨logLe_visitDefs.mem hmem.1, logLe_visitDefs.mem hmem.2⟩
          · refine ih c _ _ f
              (by simpa [opDefsL, List.filterMap_cons] using hc) hf ?_
            by_cases hn : f.name = g.name
            · have ht' := ht
              rw [hn] at ht'
              rw [hn, fragBucket_update_self]
              exact List.mem_append_left _ ht'
            · rw [fragBucket_update_ne _ _ hn]
              exact ht
      | .op o =>
          have hlen : (opDefsL (Definition.op o :: rest)).length
              = (opDefsL rest).length + 1 := by
            simp [opDefsL, List.filterMap_cons]
          rw [hlen] at hc
          have hc0 : c = 0 := by omega
          subst hc0
          simp only [visitDefs]
          rw [if_neg (by omega)]
          rcases List.mem_cons.1 hf with he | hf
          · cases he
          · match o.name with
            | none => exact ih 1 _ _ f (by omega) hf ht
            | some nm =>
                refine ih 1 _ _ f (by omega) hf ?_
                rw [fragBucket_update_op]
                exact ht

theorem visitDefs_dup_op (s t : DocumentSource) :
    ∀ (defs : List Definition) (c : Nat) (log : DiagLog) (reg : Registries)
      (o : OperationDef) (nm : String), c + (opDefsL defs).length ≤ 1 →
      Definition.op o ∈ defs → o.name = some nm → t ∈ opBucket reg nm →
      (⟨FileId.src s.fileUid, .uniqueOperation nm t.filePath, true⟩ :
          Diagnostic) ∈ (visitDefs s defs c log reg).1 ∧
      (⟨FileId.src t.fileUid, .uniqueOperation nm s.filePath, true⟩ :
          Diagnostic) ∈ (visitDefs s defs c log reg).1 := by
  intro defs
  induction defs with
  | nil =>
      intro c log reg o nm _ ho _ _
      cases ho
  | cons df rest ih =>
      intro c log reg o nm hc ho hname ht
      match df with
      | .frag g =>
          rcases List.mem_cons.1 ho with he | ho
          · cases he
          · refine ih c _ _ o nm
              (by simpa [opDefsL, List.filterMap_cons] using hc) ho hname ?_
            rw [opBucket_update_frag]
            exact ht
      | .op o' =>
          have hlen : (opDefsL (Definition.op o' :: rest)).length
              = (opDefsL rest).length + 1 := by
            simp [opDefsL, List.filterMap_cons]
          rw [hlen] at hc
          have hc0 : c = 0 := by omega
          subst hc0
          simp only [visitDefs]
          rw [if_neg (by omega)]
          rcases List.mem_cons.1 ho with he | ho
          · have hoo : o' = o := by injection he with he'; exact he'.symm
            subst hoo
            simp only [hname]
            have hmem := mem_addDupErrors s
              (fun p => Message.uniqueOperation nm p)
              (opBucket reg nm) log t ht
            exact ⟨logLe_visitDefs.mem hmem.1, logLe_visitDefs.mem hmem.2⟩
          · exfalso
            have hmem : o ∈ opDefsL rest := by
              simp only [opDefsL, List.mem_filterMap]
              exact ⟨Definition.op o, ho, rfl⟩
            have : 0 < (opDefsL rest).length := List.length_pos.2 (by
              intro hnil
              rw [hnil] at hmem
              cases hmem)
            omega

/-! ## Declaration inversion and the one-operation bound -/

theorem declaresFrag_inv {n : String} {s : DocumentSource}
    (h : declaresFrag n s = true) :
    ∃ d, s.node = some d ∧ ∃ f, Definition.frag f ∈ d.definitions ∧
      f.name = n := by
  unfold declaresFrag at h
  cases hn : s.node with
  | none => rw [hn] at h; cases h
  | some d =>
      rw [hn] at h
      rw [List.any_eq_true] at h
      obtain ⟨f, hf, hfn⟩ := h
      rw [decide_eq_true_eq] at hfn
      exact ⟨d, rfl, f, mem_fragDefs.1 hf, hfn⟩

theorem declaresOp_inv {n : String} {s : DocumentSource}
    (h : declaresOp n s = true) :
    ∃ d, s.node = some d ∧ ∃ o, Definition.op o ∈ d.definitions ∧
      o.name = some n := by
  unfold declaresOp at h
  cases hn : s.node with
  | none => rw [hn] at h; cases h
  | some d =>
      rw [hn] at h
      rw [List.any_eq_true] at h
      obtain ⟨o, ho, hon⟩ := h
      rw [decide_eq_true_eq] at hon
      exact ⟨d, rfl, o, mem_opDefs.1 ho, hon⟩

/-- The source contains at most one operation definition (so the
`multipleOperations` break never cuts its walk short). -/
def atMostOneOp (s : DocumentSource) : Bool :=
  match s.node with
  | none => true
  | some d => decide ((opDefs d).length ≤ 1)

theorem atMostOneOp_bound {s : DocumentSource} {d : DocumentNode}
    (h : atMostOneOp s = true) (hn : s.node = some d) :
    (opDefsL d.definitions).length ≤ 1 := by
  unfold atMostOneOp at h
  rw [hn] at h
  rw [decide_eq_true_eq] at h
  exact h

/-! ## C4 -/

/-- C4 (amended): for any two sources declaring the same fragment or
operation name — each containing at most one operation definition, so the
`multipleOperations` break does not cut its walk short — the validator
attaches a fatal diagnostic to the later (incoming) source referencing the
earlier sibling's path and, symmetrically, a fatal diagnostic to the
earlier sibling referencing the incoming source's path.  Quantifying over
arbitrary surrounding sources `l1`, `l2`, `l3` shows validation continues
past each collision. -/
theorem claim4_amended_symmetric_duplicates (log0 : DiagLog)
    (l1 l2 l3 : List DocumentSource) (s1 s2 : DocumentSource) (n : String)
    (h1 : atMostOneOp s1 = true) (h2 : atMostOneOp s2 = true) :
    (declaresFrag n s1 = true → declaresFrag n s2 = true →
      (⟨FileId.src s2.fileUid, .uniqueFragment n s1.filePath, true⟩ :
          Diagnostic)
        ∈ (validateSources log0 (l1 ++ s1 :: l2 ++ s2 :: l3)).1 ∧
      (⟨FileId.src s1.fileUid, .uniqueFragment n s2.filePath, true⟩ :
          Diagnostic)
        ∈ (validateSources log0 (l1 ++ s1 :: l2 ++ s2 :: l3)).1) ∧
    (declaresOp n s1 = true → declaresOp n s2 = true →
      (⟨FileId.src s2.fileUid, .uniqueOperation n s1.filePath, true⟩ :
          Diagnostic)
        ∈ (validateSources log0 (l1 ++ s1 :: l2 ++ s2 :: l3)).1 ∧
      (⟨FileId.src s1.fileUid, .uniqueOperation n s2.filePath, true⟩ :
          Diagnostic)
        ∈ (validateSources log0 (l1 ++ s1 :: l2 ++ s2 :: l3)).1) := by
  have hdecomp : validateSources log0 (l1 ++ s1 :: l2 ++ s2 :: l3)
      = List.foldl visitSource
          (visitSource
            (List.foldl visitSource
              (visitSource (List.foldl visitSource (log0, emptyRegistries) l1)
                s1)
              l2)
            s2)
          l3 := by
    rw [validateSources, List.foldl_append, List.foldl_cons,
      List.foldl_append, List.foldl_cons]
  constructor
  · intro hd1 hd2
    obtain ⟨d1, hn1, f1, hf1, hfn1⟩ := declaresFrag_inv hd1
    obtain ⟨d2, hn2, f2, hf2, hfn2⟩ := declaresFrag_inv hd2
    rw [hdecomp]
    have hreg1 : s1 ∈ fragBucket
        (visitSource (List.foldl visitSource (log0, emptyRegistries) l1) s1).2
        f1.name := by
      simp only [visitSource, hn1]
      exact visitDefs_registers_frag d1.definitions 0 _ _ f1
        (by simpa using atMostOneOp_bound h1 hn1) hf1
    have hreg2 : s1 ∈ fragBucket
        (List.foldl visitSource
          (visitSource (List.foldl visitSource (log0, emptyRegistries) l1) s1)
          l2).2 f2.name := by
      rw [hfn2, ← hfn1]
      exact fragBucket_mono_foldl hreg1
    have hdiag := visitDefs_dup_frag s2 s1 d2.definitions 0
      (List.foldl visitSource
        (visitSource (List.foldl visitSource (log0, emptyRegistries) l1) s1)
        l2).1
      (List.foldl visitSource
        (visitSource (List.foldl visitSource (log0, emptyRegistries) l1) s1)
        l2).2 f2
      (by simpa using atMostOneOp_bound h2 hn2) hf2 hreg2
    rw [hfn2] at hdiag
    have hvs2 : visitSource
        (List.foldl visitSource
          (visitSource (List.foldl visitSource (log0, emptyRegistries) l1) s1)
          l2) s2
        = visitDefs s2 d2.definitions 0
            (List.foldl visitSource
              (visitSource (List.foldl visitSource (log0, emptyRegistries) l1)
                s1) l2).1
            (List.foldl visitSource
              (visitSource (List.foldl visitSource (log0, emptyRegistries) l1)
                s1) l2).2 := by
      simp [visitSource, hn2]
    rw [hvs2]
    exact ⟨(logLe_foldl_visitSource _).mem hdiag.1,
      (logLe_foldl_visitSource _).mem hdiag.2⟩
  · intro hd1 hd2
    obtain ⟨d1, hn1, o1, ho1, hon1⟩ := declaresOp_inv hd1
    obtain ⟨d2, hn2, o2, ho2, hon2⟩ := declaresOp_inv hd2
    rw [hdecomp]
    have hreg1 : s1 ∈ opBucket
        (visitSource (List.foldl visitSource (log0, emptyRegistries) l1) s1).2
        n := by
      simp only [visitSource, hn1]
      exact visitDefs_registers_op d1.definitions 0 _ _ o1 n
        (by simpa using atMostOneOp_bound h1 hn1) ho1 hon1
    have hreg2 : s1 ∈ opBucket
        (List.foldl visitSource
          (visitSource (List.foldl visitSource (log0, emptyRegistries) l1) s1)
          l2).2 n :=
      opBucket_mono_foldl hreg1
    have hdiag := visitDefs_dup_op s2 s1 d2.definitions 0
      (List.foldl visitSource
        (visitSource (List.foldl visitSource (log0, emptyRegistries) l1) s1)
        l2).1
      (List.foldl visitSource
        (visitSource (List.foldl visitSource (log0, emptyRegistries) l1) s1)
        l2).2 o2 n
      (by simpa using atMostOneOp_bound h2 hn2) ho2 hon2 hreg2
    have hvs2 : visitSource
        (List.foldl visitSource
          (visitSource (List.foldl visitSource (log0, emptyRegistries) l1) s1)
          l2) s2
        = visitDefs s2 d2.definitions 0
            (List.foldl visitSource
              (visitSource (List.foldl visitSource (log0, emptyRegistries) l1)
                s1) l2).1
            (List.foldl visitSource
              (visitSource (List.foldl visitSource (log0, emptyRegistries) l1)
                s1) l2).2 := by
      simp [visitSource, hn2]
    rw [hvs2]
    exact ⟨(logLe_foldl_visitSource _).mem hdiag.1,
      (logLe_foldl_visitSource _).mem hdiag.2⟩

def docAB2 : DocumentNode :=
  ⟨[.op ⟨some "A", .query, "x"⟩, .op ⟨some "B", .query, "y"⟩]⟩

def srcAB : DocumentSource := ⟨some docAB2, 3, "ab.ts"⟩

def srcB2 : DocumentSource := ⟨some docB, 4, "b2.graphql"⟩

def isDupMsg : Message → Bool
  | .uniqueFragment _ _ => true
  | .uniqueOperation _ _ => true
  | _ => false

/-- C4 counterexample: `"B"` is declared by two distinct sources, yet no
duplicate-name diagnostic at all is recorded — the first source declares
two operations, so the `multipleOperations` break stops its walk before
`B` is registered, and the second source then registers `B` against an
empty bucket. -/
theorem claim4_counterexample :
    declaresOp "B" srcAB = true ∧ declaresOp "B" srcB2 = true ∧
    srcAB.fileUid ≠ srcB2.fileUid ∧
    ∀ dg ∈ (validateSources [] [srcAB, srcB2]).1,
      isDupMsg dg.message = false := by
  decide

/-- C4 witness: two single-operation sources both declaring `B` receive
the two mutually-referential fatal diagnostics. -/
theorem claim4_witness :
    (declaresFrag "B" srcB = true → declaresFrag "B" srcB2 = true →
      (⟨FileId.src srcB2.fileUid, .uniqueFragment "B" srcB.filePath, true⟩ :
          Diagnostic)
        ∈ (validateSources [] ([] ++ srcB :: [] ++ srcB2 :: [])).1 ∧
      (⟨FileId.src srcB.fileUid, .uniqueFragment "B" srcB2.filePath, true⟩ :
          Diagnostic)
        ∈ (validateSources [] ([] ++ srcB :: [] ++ srcB2 :: [])).1) ∧
    (declaresOp "B" srcB = true → declaresOp "B" srcB2 = true →
      (⟨FileId.src srcB2.fileUid, .uniqueOperation "B" srcB.filePath, true⟩ :
          Diagnostic)
        ∈ (validateSources [] ([] ++ srcB :: [] ++ srcB2 :: [])).1 ∧
      (⟨FileId.src srcB.fileUid, .uniqueOperation "B" srcB2.filePath, true⟩ :
          Diagnostic)
        ∈ (validateSources [] ([] ++ srcB :: [] ++ srcB2 :: [])).1) :=
  claim4_amended_symmetric_duplicates [] [] [] [] srcB srcB2 "B"
    (by decide) (by decide)

/-! ## Counting anonymous-operation diagnostics -/

/-- Number of `anonymousOperation` diagnostics on the file with uid `u`. -/
def anonCountOn (log : DiagLog) (u : Nat) : Nat :=
  (log.filter (fun dg =>
    decide (dg.fileId = FileId.src u) && isAnonMsg dg.message)).length

theorem anonCountOn_append {a b : DiagLog} {u : Nat} :
    anonCountOn (a ++ b) u = anonCountOn a u + anonCountOn b u := by
  simp [anonCountOn, List.filter_append]

theorem anonCountOn_addError_other {log : DiagLog} {f m u}
    (h : ¬(f = FileId.src u ∧ isAnonMsg m = true)) :
    anonCountOn (addError log f m) u = anonCountOn log u := by
  rw [addError, anonCountOn_append]
  have hz : anonCountOn [⟨f, m, true⟩] u = 0 := by
    by_cases hf : f = FileId.src u
    · have hm : isAnonMsg m = false := by
        cases hm : isAnonMsg m
        · rfl
        · exact absurd ⟨hf, hm⟩ h
      simp [anonCountOn, List.filter_cons, hf, hm]
    · simp [anonCountOn, List.filter_cons, hf]
  omega

theorem anonCountOn_addError_anon {log : DiagLog} {u : Nat} {t : OpType} :
    anonCountOn (addError log (FileId.src u) (.anonymousOperation t)) u
      = anonCountOn log u + 1 := by
  rw [addError, anonCountOn_append]
  simp [anonCountOn, List.filter_cons, isAnonMsg]

theorem anonCountOn_addDupErrors {s : DocumentSource}
    {bucket : List DocumentSource} (mk : String → Message) {log : DiagLog}
    {u : Nat} (hmk : ∀ p, isAnonMsg (mk p) = false) :
    anonCountOn (addDupErrors s bucket mk log) u = anonCountOn log u := by
  induction bucket generalizing log with
  | nil => rfl
  | cons sib rest ih =>
      show anonCountOn (addDupErrors s rest mk _) u = _
      rw [ih, anonCountOn_addError_other (by simp [hmk]),
        anonCountOn_addError_other (by simp [hmk])]

theorem anonCountOn_visitDefs_other {t : DocumentSource} {u : Nat}
    (hne : t.fileUid ≠ u) :
    ∀ (defs : List Definition) (c : Nat) (log : DiagLog) (reg : Registries),
      anonCountOn (visitDefs t defs c log reg).1 u = anonCountOn log u := by
  intro defs
  induction defs with
  | nil =>
      intro c log reg
      rfl
  | cons df rest ih =>
      intro c log reg
      match df with
      | .frag f =>
          simp only [visitDefs]
          rw [ih]
          exact anonCountOn_addDupErrors _ (fun p => rfl)
      | .op o =>
          simp only [visitDefs]
          split
          · exact anonCountOn_addError_other (by simp [isAnonMsg])
          · match o.name with
            | none =>
                rw [ih]
                exact anonCountOn_addError_other (by simp [hne])
            | some nm =>
                rw [ih]
                exact anonCountOn_addDupErrors _ (fun p => rfl)

theorem anonCountOn_visitDefs_noop {s : DocumentSource} {u : Nat} :
    ∀ (defs : List Definition) (c : Nat) (log : DiagLog) (reg : Registries),
      opDefsL defs = [] →
      anonCountOn (visitDefs s defs c log reg).1 u = anonCountOn log u := by
  intro defs
  induction defs with
  | nil =>
      intro c log reg _
      rfl
  | cons df rest ih =>
      intro c log reg hno
      match df with
      | .frag f =>
          simp only [visitDefs]
          rw [ih _ _ _ (by simpa [opDefsL, List.filterMap_cons] using hno)]
          exact anonCountOn_addDupErrors _ (fun p => rfl)
      | .op o => simp [opDefsL, List.filterMap_cons] at hno

theorem anonCountOn_visitDefs_single {s : DocumentSource}
    {o : OperationDef} :
    ∀ (defs : List Definition) (log : DiagLog) (reg : Registries),
      opDefsL defs = [o] → o.name = none →
      anonCountOn (visitDefs s defs 0 log reg).1 s.fileUid
        = anonCountOn log s.fileUid + 1 := by
  intro defs
  induction defs with
  | nil =>
      intro log reg h _
      simp [opDefsL] at h
  | cons df rest ih =>
      intro log reg hone hname
      match df with
      | .frag f =>
          simp only [visitDefs]
          rw [ih _ _ (by simpa [opDefsL, List.filterMap_cons] using hone) hname,
            anonCountOn_addDupErrors
              (fun p => Message.uniqueFragment f.name p) (fun p => rfl)]
      | .op o' =>
          have hsplit : o' = o ∧ opDefsL rest = [] := by
            have h := hone
            simp only [opDefsL, List.filterMap_cons] at h
            exact ⟨by injection h, by injection h⟩
          obtain ⟨rfl, hrest⟩ := hsplit
          simp only [visitDefs]
          rw [if_neg (by omega)]
          simp only [hname]
          rw [anonCountOn_visitDefs_noop rest 1 _ _ hrest,
            anonCountOn_addError_anon]

theorem anonCountOn_visitSource_other {st : DiagLog × Registries}
    {t : DocumentSource} {u : Nat} (hne : t.fileUid ≠ u) :
    anonCountOn (visitSource st t).1 u = anonCountOn st.1 u := by
  simp only [visitSource]
  split
  · rfl
  · exact anonCountOn_visitDefs_other hne _ _ _ _

theorem anonCountOn_foldl_other {u : Nat} :
    ∀ (l : List DocumentSource) (st : DiagLog × Registries),
      (∀ t ∈ l, t.fileUid ≠ u) →
      anonCountOn (l.foldl visitSource st).1 u = anonCountOn st.1 u := by
  intro l
  induction l with
  | nil =>
      intro st _
      rfl
  | cons t rest ih =>
      intro st hne
      rw [List.foldl_cons, ih _ (fun t' ht' => hne t' (List.mem_cons_of_mem _ ht')),
        anonCountOn_visitSource_other (hne t (List.mem_cons_self _ _))]

/-! ## C6 -/

/-- C6: a glob-discovered source whose document contains an anonymous
operation always receives a fatal diagnostic on its own file; the
operation registry only ever contains sources under names they actually
declare (so the anonymous operation is never registered); the first abort
gate fires, so the pipeline exits 1 before normalization and no manifest
is produced; and when the source's document consists of exactly that one
anonymous operation, the file is the only one with its uid and carries no
prior anonymous diagnostic, the `anonymousOperation` diagnostic is
recorded exactly once against it. -/
theorem claim6_anonymous_operation_excluded (E : Externals) (cfg : GenConfig)
    (il : DiagLog) (l1 l2 : List DocumentSource) (s : DocumentSource)
    (d : DocumentNode) (hn : s.node = some d)
    (hanon : ∃ o ∈ opDefs d, o.name = none) :
    (∃ dg ∈ valLogOf ⟨l1 ++ s :: l2, il, false, none⟩,
        dg.fileId = FileId.src s.fileUid ∧ dg.fatal = true ∧
        isAnonOrMultiMsg dg.message = true) ∧
    (∀ nm t, t ∈ opBucket (validateSources il (l1 ++ s :: l2)).2 nm →
        declaresOp nm t = true) ∧
    gateFires (files1Of ⟨l1 ++ s :: l2, il, false, none⟩)
      (valLogOf ⟨l1 ++ s :: l2, il, false, none⟩) = true ∧
    runGenerate E cfg ⟨l1 ++ s :: l2, il, false, none⟩ = .error 1 ∧
    (∀ o, opDefs d = [o] → o.name = none →
      (∀ t, (t ∈ l1 ∨ t ∈ l2) → t.fileUid ≠ s.fileUid) →
      anonCountOn il s.fileUid = 0 →
      anonCountOn (valLogOf ⟨l1 ++ s :: l2, il, false, none⟩) s.fileUid = 1) := by
  have hs : s ∈ l1 ++ s :: l2 :=
    List.mem_append_right _ (List.mem_cons_self _ _)
  have hdg := validate_anon_fatal il hs hn hanon
  have hval : valLogOf ⟨l1 ++ s :: l2, il, false, none⟩
      = (validateSources il (l1 ++ s :: l2)).1 := rfl
  have hgate : gateFires (files1Of ⟨l1 ++ s :: l2, il, false, none⟩)
      (valLogOf ⟨l1 ++ s :: l2, il, false, none⟩) = true := by
    obtain ⟨dg, hmem, hfile, hfatal, hkind⟩ := hdg
    refine gateFires_iff.2 ⟨dg, ?_, ?_⟩
    · rw [hval]
      exact hmem
    · rw [mem_files1_iff, hfile]
      exact List.mem_map_of_mem _ hs
  refine ⟨?_, ?_, hgate, runGenerate_error_of_gate1 hgate, ?_⟩
  · rw [hval]
    exact hdg
  · intro nm t ht
    exact (validate_sound.1.2 nm t ht).2
  · intro o hone honame hothers hil
    rw [hval, validateSources, List.foldl_append, List.foldl_cons]
    have hvs : visitSource (List.foldl visitSource (il, emptyRegistries) l1) s
        = visitDefs s d.definitions 0
            (List.foldl visitSource (il, emptyRegistries) l1).1
            (List.foldl visitSource (il, emptyRegistries) l1).2 := by
      simp [visitSource, hn]
    rw [anonCountOn_foldl_other l2 _
      (fun t ht => hothers t (.inr ht)), hvs,
      anonCountOn_visitDefs_single d.definitions _ _
        (opDefs_eq_opDefsL ▸ hone) honame,
      anonCountOn_foldl_other l1 _ (fun t ht => hothers t (.inl ht)), hil]

/-- C6 witness: the single-file anonymous-operation corpus. -/
theorem claim6_witness :
    (∃ dg ∈ valLogOf ⟨[] ++ srcAnon :: [], [], false, none⟩,
        dg.fileId = FileId.src srcAnon.fileUid ∧ dg.fatal = true ∧
        isAnonOrMultiMsg dg.message = true) ∧
    (∀ nm t, t ∈ opBucket (validateSources [] ([] ++ srcAnon :: [])).2 nm →
        declaresOp nm t = true) ∧
    gateFires (files1Of ⟨[] ++ srcAnon :: [], [], false, none⟩)
      (valLogOf ⟨[] ++ srcAnon :: [], [], false, none⟩) = true ∧
    runGenerate E0 cfg0 ⟨[] ++ srcAnon :: [], [], false, none⟩ = .error 1 ∧
    (∀ o, opDefs docAnon = [o] → o.name = none →
      (∀ t, (t ∈ ([] : List DocumentSource) ∨
          t ∈ ([] : List DocumentSource)) → t.fileUid ≠ srcAnon.fileUid) →
      anonCountOn [] srcAnon.fileUid = 0 →
      anonCountOn (valLogOf ⟨[] ++ srcAnon :: [], [], false, none⟩)
        srcAnon.fileUid = 1) :=
  claim6_anonymous_operation_excluded E0 cfg0 [] [] [] srcAnon docAnon rfl
    (by decide)

/-! ## Permutation toolbox -/

theorem perm_concatMap {α β : Type} (f : α → List β) {l1 l2 : List α}
    (h : l1.Perm l2) : (concatMap f l1).Perm (concatMap f l2) := by
  induction h with
  | nil => exact List.Perm.refl _
  | cons x _ ih => exact ih.append_left (f x)
  | swap x y l =>
      rw [concatMap, concatMap, concatMap, concatMap, ← List.append_assoc,
        ← List.append_assoc]
      exact (@List.perm_append_comm _ (f y) (f x)).append_right _
  | trans _ _ ih1 ih2 => exact ih1.trans ih2

theorem perm_eq_of_length_le_one {α : Type} {l1 l2 : List α}
    (h : l1.Perm l2) (hl : l1.length ≤ 1) : l1 = l2 := by
  cases l1 with
  | nil => exact (List.Perm.nil_eq h).symm ▸ rfl
  | cons x xs =>
      cases xs with
      | nil =>
          have h2 := List.perm_singleton.1 h.symm
          rw [h2]
      | cons y ys => simp at hl

theorem nodup_uniqFirstAux {α : Type} [DecidableEq α] :
    ∀ (l seen : List α), (uniqFirstAux seen l).Nodup := by
  intro l
  induction l with
  | nil =>
      intro seen
      simp [uniqFirstAux]
  | cons x xs ih =>
      intro seen
      by_cases hx : x ∈ seen
      · simp only [uniqFirstAux, if_pos hx]
        exact ih seen
      · simp only [uniqFirstAux, if_neg hx, List.nodup_cons]
        exact ⟨fun hmem =>
          ((mem_uniqFirstAux xs _ x).1 hmem).2 (List.mem_cons_self _ _), ih _⟩

theorem nodup_uniqFirst {α : Type} [DecidableEq α] (l : List α) :
    (uniqFirst l).Nodup :=
  nodup_uniqFirstAux l []

/-- The path-discovery model is invariant under shuffling the glob
result. -/
theorem getFilepathsModel_perm {p1 p2 : List String} (h : p1.Perm p2) :
    getFilepathsModel p1 = getFilepathsModel p2 := by
  have hperm : (uniqFirst p1).Perm (uniqFirst p2) := by
    refine (List.perm_ext_iff_of_nodup (nodup_uniqFirst p1)
      (nodup_uniqFirst p2)).2 ?_
    intro a
    rw [mem_uniqFirst, mem_uniqFirst]
    exact h.mem_iff
  refine List.eq_of_perm_of_sorted ?_
    (List.sorted_insertionSort strLeR (uniqFirst p1))
    (List.sorted_insertionSort strLeR (uniqFirst p2))
  exact (List.perm_insertionSort strLeR (uniqFirst p1)).trans
    (hperm.trans (List.perm_insertionSort strLeR (uniqFirst p2)).symm)

/-! ## Declared names with multiplicity -/

/-- Operation names declared by one source, in order, with multiplicity. -/
def opNames (s : DocumentSource) : List String :=
  match s.node with
  | none => []
  | some d => (opDefs d).filterMap OperationDef.name

/-- All operation names declared across the corpus. -/
def opDecls (sources : List DocumentSource) : List String :=
  concatMap opNames sources

/-- Fragment names declared by one source. -/
def fragNames (s : DocumentSource) : List String :=
  match s.node with
  | none => []
  | some d => (fragDefs d).map FragmentDef.name

/-- All fragment names declared across the corpus. -/
def fragDecls (sources : List DocumentSource) : List String :=
  concatMap fragNames sources

def opNamesL (defs : List Definition) : List String :=
  (opDefsL defs).filterMap OperationDef.name

theorem collectDefs_bucket_char {s : DocumentSource} :
    ∀ (defs : List Definition) (m : List (String × List DocumentSource))
      (n : String),
      mBucket (defs.foldl (collectDef s) m) n
        = mBucket m n ++ List.replicate ((opNamesL defs).count n) s := by
  intro defs
  induction defs with
  | nil =>
      intro m n
      simp [opNamesL, opDefsL]
  | cons df rest ih =>
      intro m n
      rw [List.foldl_cons, ih]
      match df with
      | .frag f => simp [collectDef, opNamesL, opDefsL, List.filterMap_cons]
      | .op o =>
          match homn : o.name with
          | none =>
              simp [collectDef, homn, opNamesL, opDefsL, List.filterMap_cons]
          | some nm =>
              have hnames : opNamesL (Definition.op o :: rest)
                  = nm :: opNamesL rest := by
                simp [opNamesL, opDefsL, List.filterMap_cons, homn]
              rw [hnames]
              simp only [collectDef, homn]
              by_cases hn : n = nm
              · subst hn
                have hself : mBucket (mapSet m n (((mapGet m n).getD []) ++ [s])) n
                    = mBucket m n ++ [s] := by
                  simp [mBucket, mapGet_mapSet_self]
                rw [hself, List.count_cons_self, List.append_assoc,
                  List.replicate_succ]
                rfl
              · have hother : mBucket (mapSet m nm (((mapGet m nm).getD []) ++ [s])) n
                    = mBucket m n := by
                  simp [mBucket, mapGet_mapSet_ne _ _ hn]
                rw [hother, List.count_cons_of_ne hn]

theorem collectOps_bucket_char :
    ∀ (sources : List DocumentSource) (n : String),
      mBucket (collectOps sources) n
        = concatMap (fun s => List.replicate ((opNames s).count n) s)
            sources := by
  have main : ∀ (l : List DocumentSource)
      (m : List (String × List DocumentSource)) (n : String),
      mBucket (l.foldl collectSource m) n
        = mBucket m n
            ++ concatMap (fun s => List.replicate ((opNames s).count n) s) l := by
    intro l
    induction l with
    | nil =>
        intro m n
        simp [concatMap]
    | cons s rest ih =>
        intro m n
        rw [List.foldl_cons, ih, concatMap, ← List.append_assoc]
        congr 1
        simp only [collectSource]
        split
        · next hn => simp [opNames, hn]
        · next d hn =>
            rw [collectDefs_bucket_char]
            have : opNames s = opNamesL d.definitions := by
              simp [opNames, hn, opNamesL, opDefs_eq_opDefsL]
            rw [this]
  intro sources n
  rw [collectOps, main]
  simp [mBucket, mapGet]

theorem count_opDecls (n : String) :
    ∀ (sources : List DocumentSource),
      (concatMap (fun s => List.replicate ((opNames s).count n) s)
          sources).length
        = (opDecls sources).count n := by
  intro sources
  induction sources with
  | nil => rfl
  | cons s rest ih =>
      rw [concatMap, List.length_append, ih, List.length_replicate]
      show _ = (opNames s ++ opDecls rest).count n
      rw [List.count_append]

/-- Under a non-colliding operation-name set, the per-name buckets of the
collection map are permutation-invariant. -/
theorem bucket_eq_of_perm {src1 src2 : List DocumentSource}
    (hperm : src1.Perm src2) (hnd : (opDecls src1).Nodup) (n : String) :
    mBucket (collectOps src1) n = mBucket (collectOps src2) n := by
  rw [collectOps_bucket_char, collectOps_bucket_char]
  refine perm_eq_of_length_le_one (perm_concatMap _ hperm) ?_
  rw [count_opDecls]
  exact List.nodup_iff_count_le_one.1 hnd n

/-! ## Entry-list equality under permutation -/

theorem mem_mapSet {α : Type} {m : List (String × α)} {k : String} {v : α}
    {e : String × α} (h : e ∈ mapSet m k v) : e ∈ m ∨ e = (k, v) := by
  induction m with
  | nil =>
      simp only [mapSet, List.mem_singleton] at h
      exact .inr h
  | cons p rest ih =>
      by_cases hp : p.1 = k
      · simp only [mapSet, if_pos hp, List.mem_cons] at h
        rcases h with h | h
        · exact .inr h
        · exact .inl (List.mem_cons_of_mem _ h)
      · simp only [mapSet, if_neg hp, List.mem_cons] at h
        rcases h with h | h
        · exact .inl (h ▸ List.mem_cons_self _ _)
        · rcases ih h with h' | h'
          · exact .inl (List.mem_cons_of_mem _ h')
          · exact .inr h'

theorem collectOps_values_nonempty {sources : List DocumentSource} :
    ∀ e ∈ collectOps sources, e.2 ≠ [] := by
  have stepDef : ∀ (s : DocumentSource) (m) (df : Definition),
      (∀ e ∈ m, e.2 ≠ []) → ∀ e ∈ collectDef s m df, e.2 ≠ [] := by
    intro s m df h e he
    match df with
    | .frag f => exact h e he
    | .op o =>
        simp only [collectDef] at he
        match homn : o.name with
        | none =>
            rw [homn] at he
            exact h e he
        | some nm =>
            rw [homn] at he
            rcases mem_mapSet he with he | he
            · exact h e he
            · rw [he]
              simp
  have stepDefs : ∀ (s : DocumentSource) (defs : List Definition) (m),
      (∀ e ∈ m, e.2 ≠ []) → ∀ e ∈ defs.foldl (collectDef s) m, e.2 ≠ [] := by
    intro s defs
    induction defs with
    | nil => exact fun m h => h
    | cons df rest ih => exact fun m h => ih _ (stepDef s m df h)
  have stepSrc : ∀ (m) (s : DocumentSource),
      (∀ e ∈ m, e.2 ≠ []) → ∀ e ∈ collectSource m s, e.2 ≠ [] := by
    intro m s h
    simp only [collectSource]
    split
    · exact h
    · exact stepDefs _ _ _ h
  have main : ∀ (l : List DocumentSource) (m),
      (∀ e ∈ m, e.2 ≠ []) → ∀ e ∈ l.foldl collectSource m, e.2 ≠ [] := by
    intro l
    induction l with
    | nil => exact fun m h => h
    | cons s rest ih => exact fun m h => ih _ (stepSrc m s h)
  exact main sources [] (by simp)

theorem mem_of_mapGet_eq_some {α : Type} {m : List (String × α)} {k : String}
    {v : α} (h : mapGet m k = some v) : (k, v) ∈ m := by
  induction m with
  | nil => simp [mapGet] at h
  | cons p rest ih =>
      by_cases hp : p.1 = k
      · simp only [mapGet, if_pos hp, Option.some.injEq] at h
        have : p = (k, v) := by
          cases p
          simp only at hp h
          rw [hp, h]
        exact this ▸ List.mem_cons_self _ _
      · simp only [mapGet, if_neg hp] at h
        exact List.mem_cons_of_mem _ (ih h)

theorem mapGet_eq_of_mBucket_eq {m1 m2 : List (String × List DocumentSource)}
    {n : String} (h1 : ∀ e ∈ m1, e.2 ≠ []) (h2 : ∀ e ∈ m2, e.2 ≠ [])
    (hb : mBucket m1 n = mBucket m2 n) : mapGet m1 n = mapGet m2 n := by
  cases hg1 : mapGet m1 n with
  | none =>
      cases hg2 : mapGet m2 n with
      | none => rfl
      | some v2 =>
          exfalso
          have hv2 := h2 _ (mem_of_mapGet_eq_some hg2)
          simp only at hv2
          have : mBucket m1 n = v2 := by
            rw [hb]
            simp [mBucket, hg2]
          rw [show mBucket m1 n = [] from by simp [mBucket, hg1]] at this
          exact hv2 this.symm
  | some v1 =>
      cases hg2 : mapGet m2 n with
      | none =>
          exfalso
          have hv1 := h1 _ (mem_of_mapGet_eq_some hg1)
          simp only at hv1
          have : v1 = mBucket m2 n := by
            rw [← hb]
            simp [mBucket, hg1]
          rw [show mBucket m2 n = [] from by simp [mBucket, hg2]] at this
          exact hv1 this
      | some v2 =>
          have : v1 = v2 := by
            have e1 : mBucket m1 n = v1 := by simp [mBucket, hg1]
            have e2 : mBucket m2 n = v2 := by simp [mBucket, hg2]
            rw [← e1, ← e2, hb]
          rw [this]

theorem collectOps_perm {src1 src2 : List DocumentSource}
    (hperm : src1.Perm src2) (hnd : (opDecls src1).Nodup) :
    (collectOps src1).Perm (collectOps src2) := by
  refine (List.perm_ext_iff_of_nodup
    (List.Nodup.of_map Prod.fst nodupKeys_collectOps)
    (List.Nodup.of_map Prod.fst nodupKeys_collectOps)).2 ?_
  intro e
  obtain ⟨k, b⟩ := e
  have hget : mapGet (collectOps src1) k = mapGet (collectOps src2) k :=
    mapGet_eq_of_mBucket_eq (fun e' he' => collectOps_values_nonempty e' he')
      (fun e' he' => collectOps_values_nonempty e' he')
      (bucket_eq_of_perm hperm hnd k)
  constructor
  · intro he
    have h1 := mapGet_eq_some_of_mem nodupKeys_collectOps he
    rw [hget] at h1
    exact mem_of_mapGet_eq_some h1
  · intro he
    have h1 := mapGet_eq_some_of_mem nodupKeys_collectOps he
    rw [← hget] at h1
    exact mem_of_mapGet_eq_some h1

theorem sorted_eq_of_perm_of_nodupKeys :
    ∀ (m1 m2 : List (String × List DocumentSource)), m1.Perm m2 →
      List.Sorted entryLeR m1 → List.Sorted entryLeR m2 →
      (mapKeys m1).Nodup → m1 = m2 := by
  intro m1
  induction m1 with
  | nil =>
      intro m2 hp _ _ _
      exact hp.nil_eq
  | cons h1 t1 ih =>
      intro m2 hp hs1 hs2 hk
      cases m2 with
      | nil =>
          exact absurd hp.symm.nil_eq (by simp)
      | cons h2 t2 =>
          have hh : h1 = h2 := by
            have hmem : h1 ∈ h2 :: t2 := hp.subset (List.mem_cons_self _ _)
            rcases List.mem_cons.1 hmem with he | hmem1
            · exact he
            · have hle21 : entryLeR h2 h1 := (List.sorted_cons.1 hs2).1 h1 hmem1
              have hmem2 : h2 ∈ h1 :: t1 := hp.symm.subset (List.mem_cons_self _ _)
              rcases List.mem_cons.1 hmem2 with he2 | hmem2
              · exact he2.symm
              · have hle12 : entryLeR h1 h2 := (List.sorted_cons.1 hs1).1 h2 hmem2
                have hkey : h1.1 = h2.1 := strLe_antisymm hle12 hle21
                exfalso
                have hk2 : (mapKeys (h2 :: t2)).Nodup :=
                  ((hp.map Prod.fst).nodup_iff).1 hk
                simp only [mapKeys, List.map_cons, List.nodup_cons] at hk2
                exact hk2.1 (hkey ▸ List.mem_map_of_mem Prod.fst hmem1)
          subst hh
          have ht : t1.Perm t2 := hp.cons_inv
          rw [ih t2 ht (List.sorted_cons.1 hs1).2 (List.sorted_cons.1 hs2).2
            (by
              simp only [mapKeys, List.map_cons, List.nodup_cons] at hk
              exact hk.2)]

theorem sortedEntries_eq_of_perm {m1 m2 : List (String × List DocumentSource)}
    (hperm : m1.Perm m2) (hk : (mapKeys m1).Nodup) :
    sortedEntries m1 = sortedEntries m2 := by
  refine sorted_eq_of_perm_of_nodupKeys _ _
    ((List.perm_insertionSort entryLeR m1).trans
      (hperm.trans (List.perm_insertionSort entryLeR m2).symm))
    (sorted_sortedEntries m1) (sorted_sortedEntries m2) ?_
  exact (((List.perm_insertionSort entryLeR m1).map Prod.fst).nodup_iff).2 hk

/-! ## Fragment-registry lookup equality under permutation -/

theorem find?_append_some {α : Type} {l1 l2 : List α} {p : α → Bool} {a : α}
    (h : l1.find? p = some a) : (l1 ++ l2).find? p = some a := by
  induction l1 with
  | nil => simp [List.find?] at h
  | cons x t ih =>
      cases hp : p x with
      | true =>
          rw [List.find?_cons_of_pos _ hp] at h
          rw [List.cons_append, List.find?_cons_of_pos _ hp]
          exact h
      | false =>
          rw [List.find?_cons_of_neg _ (by simp [hp])] at h
          rw [List.cons_append, List.find?_cons_of_neg _ (by simp [hp])]
          exact ih h

theorem find?_append_none {α : Type} {l1 l2 : List α} {p : α → Bool}
    (h : l1.find? p = none) : (l1 ++ l2).find? p = l2.find? p := by
  induction l1 with
  | nil => rfl
  | cons x t ih =>
      cases hp : p x with
      | true =>
          rw [List.find?_cons_of_pos _ hp] at h
          cases h
      | false =>
          rw [List.find?_cons_of_neg _ (by simp [hp])] at h
          rw [List.cons_append, List.find?_cons_of_neg _ (by simp [hp])]
          exact ih h

theorem registerFragList_from_char :
    ∀ (l : List FragmentDef) (acc : FragLookup) (n : String),
      (l.foldl overrideFrag acc) n
        = (l.reverse.find? (fun f => f.name == n)).or (acc n) := by
  intro l
  induction l with
  | nil =>
      intro acc n
      rfl
  | cons f t ih =>
      intro acc n
      rw [List.foldl_cons, ih, List.reverse_cons]
      cases hf : t.reverse.find? (fun f => f.name == n) with
      | some g =>
          rw [find?_append_some hf]
          rfl
      | none =>
          rw [find?_append_none hf]
          by_cases hn : f.name = n
          · rw [List.find?_cons_of_pos _ (by simp [hn])]
            simp [overrideFrag, hn, Option.or]
          · rw [List.find?_cons_of_neg _ (by simp [hn])]
            simp only [overrideFrag, Option.or]
            rw [if_neg (fun h => hn h.symm)]
            rfl

theorem find?_name_eq_of_perm {l1 l2 : List FragmentDef} (hp : l1.Perm l2)
    (hnd : (l1.map FragmentDef.name).Nodup) (n : String) :
    l1.find? (fun f => f.name == n) = l2.find? (fun f => f.name == n) := by
  cases hf : l1.find? (fun f => f.name == n) with
  | none =>
      cases hg : l2.find? (fun f => f.name == n) with
      | none => rfl
      | some g =>
          exfalso
          have hmem : g ∈ l1 := hp.symm.subset (List.mem_of_find?_eq_some hg)
          have hgp := List.find?_some hg
          rw [List.find?_eq_none] at hf
          exact hf g hmem hgp
  | some f =>
      have hfmem := List.mem_of_find?_eq_some hf
      have hfp := List.find?_some hf
      cases hg : l2.find? (fun f => f.name == n) with
      | none =>
          exfalso
          rw [List.find?_eq_none] at hg
          exact hg f (hp.subset hfmem) hfp
      | some g =>
          have hgmem : g ∈ l1 := hp.symm.subset (List.mem_of_find?_eq_some hg)
          have hgp := List.find?_some hg
          have hfn : f.name = n := by simpa using hfp
          have hgn : g.name = n := by simpa using hgp
          exact congrArg some
            (List.inj_on_of_nodup_map hnd hfmem hgmem (by rw [hfn, hgn]))

theorem map_name_allFrags :
    ∀ (sources : List DocumentSource),
      ((concatMap fragDefs (sources.filterMap DocumentSource.node)).map
        FragmentDef.name) = fragDecls sources := by
  intro sources
  induction sources with
  | nil => rfl
  | cons s rest ih =>
      show ((concatMap fragDefs ((s :: rest).filterMap DocumentSource.node)).map
        FragmentDef.name) = fragNames s ++ fragDecls rest
      rw [List.filterMap_cons]
      cases hn : s.node with
      | none => simp [fragNames, hn, ih]
      | some d =>
          rw [concatMap, List.map_append, ih]
          simp [fragNames, hn]

theorem registerFrags_eq_of_perm {src1 src2 : List DocumentSource}
    (hperm : src1.Perm src2) (hnd : (fragDecls src1).Nodup) :
    registerFrags src1 = registerFrags src2 := by
  funext n
  rw [registerFrags, registerFrags, registerFragList, registerFragList,
    registerFragList_from_char, registerFragList_from_char]
  have hflat : (concatMap fragDefs (src1.filterMap DocumentSource.node)).Perm
      (concatMap fragDefs (src2.filterMap DocumentSource.node)) :=
    perm_concatMap _ (hperm.filterMap _)
  have hrev : ((concatMap fragDefs
      (src1.filterMap DocumentSource.node)).reverse).Perm
      ((concatMap fragDefs (src2.filterMap DocumentSource.node)).reverse) :=
    ((List.reverse_perm _).trans hflat).trans (List.reverse_perm _).symm
  have hndrev : (((concatMap fragDefs
      (src1.filterMap DocumentSource.node)).reverse).map
        FragmentDef.name).Nodup := by
    rw [List.map_reverse, List.nodup_reverse, map_name_allFrags]
    exact hnd
  rw [find?_name_eq_of_perm hrev hndrev]

/-! ## C7 -/

theorem gateFires_congr {files1 files2 : List FileId} {log : DiagLog}
    (h : ∀ f, f ∈ files1 ↔ f ∈ files2) :
    gateFires files1 log = gateFires files2 log := by
  cases hg : gateFires files2 log with
  | false =>
      cases hg1 : gateFires files1 log with
      | false => rfl
      | true =>
          exfalso
          obtain ⟨d, hd, hf⟩ := gateFires_iff.1 hg1
          have : gateFires files2 log = true :=
            gateFires_iff.2 ⟨d, hd, (h _).1 hf⟩
          rw [hg] at this
          cases this
  | true =>
      obtain ⟨d, hd, hf⟩ := gateFires_iff.1 hg
      exact gateFires_iff.2 ⟨d, hd, (h _).2 hf⟩

/-- C7: shuffling the document discovery order of a valid, non-colliding
corpus does not change the result of `generatePersistedQueryManifest` —
the collection buckets are singletons determined by the name, the
execution order is the name-sorted entry order, and the fragment registry
lookup is order-insensitive when fragment names are unique.  The second
conjunct covers the loader: `getFilepaths` deduplicates and sorts, so any
permutation of the glob result yields the same path list. -/
theorem claim7_order_independence (E : Externals) (cfg : GenConfig)
    (src1 src2 : List DocumentSource) (hperm : src1.Perm src2)
    (hv1 : (validateSources [] src1).1 = [])
    (hv2 : (validateSources [] src2).1 = [])
    (hndOp : (opDecls src1).Nodup) (hndFrag : (fragDecls src1).Nodup) :
    runGenerate E cfg ⟨src1, [], false, none⟩
      = runGenerate E cfg ⟨src2, [], false, none⟩ ∧
    (∀ p1 p2 : List String, p1.Perm p2 →
      getFilepathsModel p1 = getFilepathsModel p2) := by
  refine ⟨?_, fun p1 p2 h => getFilepathsModel_perm h⟩
  have hval1 : valLogOf ⟨src1, [], false, none⟩ = [] := by
    simpa [valLogOf] using hv1
  have hval2 : valLogOf ⟨src2, [], false, none⟩ = [] := by
    simpa [valLogOf] using hv2
  have hreg : effRegOf ⟨src1, [], false, none⟩
      = effRegOf ⟨src2, [], false, none⟩ := by
    show registerFrags src1 = registerFrags src2
    exact registerFrags_eq_of_perm hperm hndFrag
  have hentries : sortedEntries (collectOps src1)
      = sortedEntries (collectOps src2) :=
    sortedEntries_eq_of_perm (collectOps_perm hperm hndOp) nodupKeys_collectOps
  have hst : execStateOf E cfg ⟨src1, [], false, none⟩
      = execStateOf E cfg ⟨src2, [], false, none⟩ := by
    unfold execStateOf
    rw [hval1, hval2, hreg]
    unfold execAll
    rw [hentries]
  have hfiles : ∀ f, f ∈ files2Of ⟨src1, [], false, none⟩ ↔
      f ∈ files2Of ⟨src2, [], false, none⟩ := by
    intro f
    rw [mem_files2_iff, mem_files2_iff]
    have hmem : f ∈ srcFileIds src1 ↔ f ∈ srcFileIds src2 :=
      (hperm.map _).mem_iff
    tauto
  unfold runGenerate
  rw [hval1, hval2, hst, gateFires_congr hfiles]
  simp [gateFires_nil]

/-- C7 witness: the two-query corpus in both discovery orders. -/
theorem claim7_witness :
    runGenerate E0 cfg0 ⟨[srcB, srcA], [], false, none⟩
      = runGenerate E0 cfg0 ⟨[srcA, srcB], [], false, none⟩ ∧
    (∀ p1 p2 : List String, p1.Perm p2 →
      getFilepathsModel p1 = getFilepathsModel p2) :=
  claim7_order_independence E0 cfg0 [srcB, srcA] [srcA, srcB]
    (List.Perm.swap srcA srcB []) (by rfl) (by rfl) (by decide) (by decide)

/-! ## C8 -/

/-- C8: on every successful run (the generator returns a manifest, i.e. no
fatal diagnostic) the CLI action prints `Written to <outputPath>` (default
`persisted-query-manifest.json`) and exits 0 — but its effect trace
contains no `writeFile` effect at all: `cli.js` never writes the manifest
to the output path, contradicting both the claim and its own printed
message. -/
theorem claim8_cli_never_writes (E : Externals) (uc : Option GenConfig)
    (input : CorpusInput) (m : PersistedQueryManifest)
    (hok : runGenerate E (uc.getD ⟨none, none⟩) input = .ok m) :
    (cliAction E uc input).2 = 0 ∧
    CliEffect.printLine
        ("Written to " ++ ((uc.bind GenConfig.output).getD defaultsOutput))
      ∈ (cliAction E uc input).1 ∧
    ∀ e ∈ (cliAction E uc input).1, ∀ p c, e ≠ CliEffect.writeFile p c := by
  refine ⟨?_, ?_, ?_⟩
  · simp [cliAction, hok]
  · simp [cliAction, hok]
  · intro e he p c
    simp only [cliAction, hok, List.mem_singleton] at he
    rw [he]
    intro hcontra
    cases hcontra

/-- C8 witness: the successful empty-corpus run with no user config. -/
theorem claim8_witness :
    (cliAction E0 none ⟨[], [], false, none⟩).2 = 0 ∧
    CliEffect.printLine
        ("Written to "
          ++ (((none : Option GenConfig).bind GenConfig.output).getD
                defaultsOutput))
      ∈ (cliAction E0 none ⟨[], [], false, none⟩).1 ∧
    ∀ e ∈ (cliAction E0 none ⟨[], [], false, none⟩).1,
      ∀ p c, e ≠ CliEffect.writeFile p c :=
  claim8_cli_never_writes E0 none ⟨[], [], false, none⟩
    ⟨"apollo-persisted-query-manifest", 1, []⟩ (by rfl)

end PQGen
